import Mathlib

/-!
Verification of the group-planning and reconciliation engine of UnifiedLLM.

The Python sources are shallowly embedded: strings are lists of characters,
dictionaries are association lists in insertion order, and each stateful
remote-API routine is modelled as a pure function on an explicit state.

Components embedded below:
* `sanitize_name`, `split_providers` — `app/services/provider_splitter.py`
* `diff_configs` and its helpers — `app/services/gptload_client.py`
* `delete_standard_group_with_cascade`, `get_existing_config`,
  `create_new_provider_groups` — `app/services/gptload_client.py`
-/

namespace UnifiedLLM

/-- Strings are modelled as lists of characters. -/
abbrev Str := List Char

/-- The character class `[a-z0-9\-_]` of `sanitize_name`'s regexes. -/
def isAllowedChar (c : Char) : Bool :=
  ('a' ≤ c && c ≤ 'z') || ('0' ≤ c && c ≤ '9') || c == '-' || c == '_'

/-- One character of `name.lower()`.  Case mapping is modelled on ASCII;
characters outside the allowed class are replaced by `-` in the next step
either way. -/
def lowerChar (c : Char) : Char :=
  if 'A' ≤ c && c ≤ 'Z' then Char.ofNat (c.toNat + 32) else c

/-- Python `re.sub(r'[^a-z0-9\-_]', '-', name)`. -/
def replaceDisallowed (l : Str) : Str :=
  l.map (fun c => if isAllowedChar c then c else '-')

/-- Python `re.sub(r'-+', '-', name)`: every maximal run of hyphens collapses to one. -/
def squeezeDash : Str → Str
  | [] => []
  | [c] => [c]
  | a :: b :: rest =>
      if a == '-' && b == '-' then squeezeDash (b :: rest)
      else a :: squeezeDash (b :: rest)

/-- Python `name.rstrip('-')`. -/
def rstripDash (l : Str) : Str :=
  (l.reverse.dropWhile (fun c => c == '-')).reverse

/-- Python `name.strip('-')`. -/
def stripDash (l : Str) : Str :=
  rstripDash (l.dropWhile (fun c => c == '-'))

/-- The function `ProviderSplitter.sanitize_name` (provider_splitter.py, lines 55-89):
lower-case, replace disallowed characters by `-`, collapse hyphen runs,
strip edge hyphens, truncate to 100 characters without a trailing `-`,
and fall back to `"model"` when empty. -/
def sanitize_name (s : Str) : Str :=
  let l1 := s.map lowerChar
  let l2 := replaceDisallowed l1
  let l3 := squeezeDash l2
  let l4 := stripDash l3
  let l5 := if 100 < l4.length then rstripDash (l4.take 100) else l4
  if l5 = [] then ['m', 'o', 'd', 'e', 'l'] else l5

/-- Characterization of `sanitize_name`'s image: only allowed characters,
no two adjacent hyphens, no hyphen at either edge, at most 100 characters,
nonempty. -/
def GoodStr (l : Str) : Prop :=
  (∀ c ∈ l, isAllowedChar c = true) ∧
  List.Chain' (fun a b => ¬(a = '-' ∧ b = '-')) l ∧
  l.head? ≠ some '-' ∧
  l.getLast? ≠ some '-' ∧
  l.length ≤ 100 ∧ l ≠ []

lemma mem_replaceDisallowed (l : Str) : ∀ c ∈ replaceDisallowed l, isAllowedChar c = true := by
  intro c hc
  simp only [replaceDisallowed, List.mem_map] at hc
  obtain ⟨a, -, rfl⟩ := hc
  by_cases h : isAllowedChar a = true
  · simp [h]
  · rw [if_neg h]; decide

lemma mem_squeezeDash (l : Str) : ∀ c ∈ squeezeDash l, c ∈ l := by
  induction l with
  | nil => simp [squeezeDash]
  | cons a t ih =>
    cases t with
    | nil => simp [squeezeDash]
    | cons b rest =>
      intro c hc
      simp only [squeezeDash] at hc
      by_cases h : (a == '-' && b == '-') = true
      · rw [if_pos h] at hc
        exact List.mem_cons_of_mem _ (ih c hc)
      · rw [if_neg h] at hc
        rcases List.mem_cons.mp hc with rfl | hc2
        · exact List.mem_cons_self _ _
        · exact List.mem_cons_of_mem _ (ih c hc2)

lemma head?_squeezeDash (l : Str) : (squeezeDash l).head? = l.head? := by
  induction l with
  | nil => rfl
  | cons a t ih =>
    cases t with
    | nil => rfl
    | cons b rest =>
      simp only [squeezeDash]
      by_cases h : (a == '-' && b == '-') = true
      · rw [if_pos h, ih]
        simp only [Bool.and_eq_true, beq_iff_eq] at h
        simp [h.1, h.2]
      · rw [if_neg h]; rfl

lemma chain'_squeezeDash (l : Str) :
    List.Chain' (fun a b => ¬(a = '-' ∧ b = '-')) (squeezeDash l) := by
  induction l with
  | nil => simp [squeezeDash]
  | cons a t ih =>
    cases t with
    | nil => simp [squeezeDash]
    | cons b rest =>
      simp only [squeezeDash]
      by_cases h : (a == '-' && b == '-') = true
      · rw [if_pos h]; exact ih
      · rw [if_neg h, List.chain'_cons']
        refine ⟨?_, ih⟩
        intro y hy
        rw [head?_squeezeDash] at hy
        simp only [List.head?_cons, Option.mem_def, Option.some.injEq] at hy
        subst hy
        rintro ⟨ha, hb⟩
        exact h (by simp [ha, hb])

lemma squeezeDash_eq_self (l : Str)
    (h : List.Chain' (fun a b => ¬(a = '-' ∧ b = '-')) l) : squeezeDash l = l := by
  induction l with
  | nil => rfl
  | cons a t ih =>
    cases t with
    | nil => rfl
    | cons b rest =>
      rw [List.chain'_cons] at h
      simp only [squeezeDash]
      rw [if_neg, ih h.2]
      simp only [Bool.and_eq_true, beq_iff_eq]
      exact fun hc => h.1 hc

lemma head?_dropWhile_dash (l : Str) :
    ∀ c, (l.dropWhile (fun c => c == '-')).head? = some c → c ≠ '-' := by
  induction l with
  | nil => simp
  | cons a t ih =>
    intro c hc
    rw [List.dropWhile_cons] at hc
    by_cases h : (a == '-') = true
    · rw [if_pos h] at hc; exact ih c hc
    · rw [if_neg h] at hc
      simp only [List.head?_cons, Option.some.injEq] at hc
      subst hc
      simpa using h

lemma chain'_of_prefix_self {R : Char → Char → Prop} {l m : Str}
    (h : List.Chain' R m) (hp : l <+: m) : List.Chain' R l := by
  obtain ⟨t, rfl⟩ := hp
  exact h.left_of_append

lemma rstripDash_prefix_self (l : Str) : rstripDash l <+: l := by
  obtain ⟨t, ht⟩ := List.dropWhile_suffix (l := l.reverse) (fun c => c == '-')
  refine ⟨t.reverse, ?_⟩
  rw [rstripDash, ← List.reverse_append, ht, List.reverse_reverse]

lemma getLast?_rstripDash (l : Str) :
    ∀ c, (rstripDash l).getLast? = some c → c ≠ '-' := by
  intro c hc
  rw [rstripDash, List.getLast?_reverse] at hc
  exact head?_dropWhile_dash _ c hc

lemma head?_of_prefix_self {l m : Str} (h : l <+: m) (c : Char) (hc : l.head? = some c) :
    m.head? = some c := by
  obtain ⟨t, rfl⟩ := h
  cases l with
  | nil => simp at hc
  | cons a u => simpa using hc

lemma stripDash_subset (l : Str) : ∀ c ∈ stripDash l, c ∈ l := by
  intro c hc
  have h1 : c ∈ l.dropWhile (fun c => c == '-') :=
    (rstripDash_prefix_self _).subset hc
  exact (List.dropWhile_suffix _).subset h1

lemma chain'_stripDash {l : Str}
    (h : List.Chain' (fun a b => ¬(a = '-' ∧ b = '-')) l) :
    List.Chain' (fun a b => ¬(a = '-' ∧ b = '-')) (stripDash l) :=
  chain'_of_prefix_self (h.suffix (List.dropWhile_suffix _)) (rstripDash_prefix_self _)

lemma head?_stripDash (l : Str) : ∀ c, (stripDash l).head? = some c → c ≠ '-' := by
  intro c hc
  exact head?_dropWhile_dash l c (head?_of_prefix_self (rstripDash_prefix_self _) c hc)

lemma getLast?_stripDash (l : Str) : ∀ c, (stripDash l).getLast? = some c → c ≠ '-' :=
  getLast?_rstripDash _

lemma goodStr_model : GoodStr ['m', 'o', 'd', 'e', 'l'] := by
  refine ⟨by decide, ?_, by decide, by decide, by decide, by decide⟩
  simp only [List.chain'_cons, List.chain'_singleton]
  refine ⟨?_, ?_, ?_, ?_⟩ <;> decide

lemma sanitize_good (s : Str) : GoodStr (sanitize_name s) := by
  simp only [sanitize_name]
  set l3 := squeezeDash (replaceDisallowed (s.map lowerChar)) with hl3
  have m3 : ∀ c ∈ l3, isAllowedChar c = true := fun c hc =>
    mem_replaceDisallowed _ c (mem_squeezeDash _ c hc)
  have c3 : List.Chain' (fun a b => ¬(a = '-' ∧ b = '-')) l3 := chain'_squeezeDash _
  set l4 := stripDash l3 with hl4
  have m4 : ∀ c ∈ l4, isAllowedChar c = true := fun c hc => m3 c (stripDash_subset _ c hc)
  have c4 : List.Chain' (fun a b => ¬(a = '-' ∧ b = '-')) l4 := chain'_stripDash c3
  have h4 : ∀ c, l4.head? = some c → c ≠ '-' := head?_stripDash _
  have g4 : ∀ c, l4.getLast? = some c → c ≠ '-' := getLast?_stripDash _
  by_cases htr : 100 < l4.length
  · rw [if_pos htr]
    set l5 := rstripDash (l4.take 100) with hl5
    have pre5 : l5 <+: l4 := (rstripDash_prefix_self _).trans ⟨l4.drop 100, List.take_append_drop 100 l4⟩
    have m5 : ∀ c ∈ l5, isAllowedChar c = true := fun c hc => m4 c (pre5.subset hc)
    have c5 : List.Chain' (fun a b => ¬(a = '-' ∧ b = '-')) l5 := chain'_of_prefix_self c4 pre5
    have h5 : ∀ c, l5.head? = some c → c ≠ '-' := fun c hc =>
      h4 c (head?_of_prefix_self pre5 c hc)
    have g5 : ∀ c, l5.getLast? = some c → c ≠ '-' := getLast?_rstripDash _
    have len5 : l5.length ≤ 100 := by
      calc l5.length ≤ (l4.take 100).length := (rstripDash_prefix_self _).length_le
        _ ≤ 100 := by simp
    by_cases hz : l5 = []
    · rw [if_pos hz]; exact goodStr_model
    · rw [if_neg hz]
      refine ⟨m5, c5, ?_, ?_, len5, hz⟩
      · intro hc; exact h5 '-' hc rfl
      · intro hc; exact g5 '-' hc rfl
  · rw [if_neg htr]
    by_cases hz : l4 = []
    · rw [if_pos hz]; exact goodStr_model
    · rw [if_neg hz]
      refine ⟨m4, c4, ?_, ?_, by omega, hz⟩
      · intro hc; exact h4 '-' hc rfl
      · intro hc; exact g4 '-' hc rfl

lemma lowerChar_allowed {c : Char} (h : isAllowedChar c = true) : lowerChar c = c := by
  have hAZ : ¬(('A' ≤ c && c ≤ 'Z') = true) := by
    simp only [isAllowedChar, Bool.or_eq_true, Bool.and_eq_true, decide_eq_true_eq,
      beq_iff_eq] at h
    simp only [Bool.and_eq_true, decide_eq_true_eq, not_and]
    intro hA hZ
    rcases h with ((⟨h1, -⟩ | ⟨-, h2⟩) | rfl) | rfl
    · exact absurd (le_trans h1 hZ) (by decide)
    · exact absurd (le_trans hA h2) (by decide)
    · exact absurd hA (by decide)
    · exact absurd hZ (by decide)
  simp [lowerChar, hAZ]

lemma map_lowerChar_allowed {l : Str} (h : ∀ c ∈ l, isAllowedChar c = true) :
    l.map lowerChar = l := by
  induction l with
  | nil => rfl
  | cons a t ih =>
    simp only [List.map_cons]
    rw [lowerChar_allowed (h a (List.mem_cons_self _ _)),
      ih (fun c hc => h c (List.mem_cons_of_mem _ hc))]

lemma replaceDisallowed_allowed {l : Str} (h : ∀ c ∈ l, isAllowedChar c = true) :
    replaceDisallowed l = l := by
  induction l with
  | nil => rfl
  | cons a t ih =>
    simp only [replaceDisallowed, List.map_cons]
    rw [if_pos (h a (List.mem_cons_self _ _))]
    have := ih (fun c hc => h c (List.mem_cons_of_mem _ hc))
    simp only [replaceDisallowed] at this
    rw [this]

lemma dropWhile_dash_eq_self {l : Str} (h : l.head? ≠ some '-') :
    l.dropWhile (fun c => c == '-') = l := by
  cases l with
  | nil => rfl
  | cons a t =>
    rw [List.dropWhile_cons, if_neg]
    simp only [List.head?_cons, ne_eq, Option.some.injEq] at h
    simpa using h

lemma rstripDash_eq_self {l : Str} (h : l.getLast? ≠ some '-') : rstripDash l = l := by
  rw [rstripDash, dropWhile_dash_eq_self, List.reverse_reverse]
  rw [List.head?_reverse]
  exact h

lemma stripDash_eq_self {l : Str} (h1 : l.head? ≠ some '-') (h2 : l.getLast? ≠ some '-') :
    stripDash l = l := by
  rw [stripDash, dropWhile_dash_eq_self h1, rstripDash_eq_self h2]

lemma sanitize_fix {l : Str} (h : GoodStr l) : sanitize_name l = l := by
  obtain ⟨h1, h2, h3, h4, h5, h6⟩ := h
  simp only [sanitize_name]
  rw [map_lowerChar_allowed h1, replaceDisallowed_allowed h1, squeezeDash_eq_self _ h2,
    stripDash_eq_self h3 h4]
  have hlen : ¬(100 < l.length) := by omega
  rw [if_neg hlen, if_neg h6]

/-- C4: `sanitize_name` is idempotent — sanitizing an already-sanitized
string is a no-op, for every input string. -/
theorem sanitize_name_idempotent (s : Str) :
    sanitize_name (sanitize_name s) = sanitize_name s :=
  sanitize_fix (sanitize_good s)

/-! ### Provider splitting (`ProviderSplitter.split_providers`) -/

/-- The input `ProviderConfig` record (provider_splitter.py, lines 17-24). -/
structure ProviderConfig where
  name : Str
  base_url : Str
  api_key : Str
  channel_type : Str
  models : List Str
deriving DecidableEq

/-- A standard `SplitGroup` as produced by `split_providers` (all groups it
returns have `group_type = 'standard'` and `sub_group_names = None`, so those
two constant fields are omitted).  `model_redirect_rules` is a dict in
insertion order; its keys never repeat (see `nonDupRules`). -/
structure SplitGroup where
  group_name : Str
  provider_name : Str
  base_url : Str
  api_key : Str
  channel_type : Str
  model_redirect_rules : List (Str × Str)
deriving DecidableEq

/-- The rename map `{provider_name: {original_name: normalized_name}}`. -/
abbrev RenameMap := List (Str × List (Str × Str))

/-- Python dict lookup (`d.get(k)`) on an association list. -/
def alookup {α β : Type} [DecidableEq α] : List (α × β) → α → Option β
  | [], _ => none
  | (k, v) :: t, a => if a = k then some v else alookup t a

/-- Python `rename_mapping.get(provider_name, {})`. -/
def renamesFor (rm : RenameMap) (p : Str) : List (Str × Str) :=
  (alookup rm p).getD []

/-- Python `renames.get(original_model, original_model)`: the effective normalized
name of an original model name. -/
def effName (renames : List (Str × Str)) (original : Str) : Str :=
  (alookup renames original).getD original

/-- The entry `model_to_providers[m]` built in step 1 of `split_providers`:
all `(provider name, original model name)` sources, in catalog order, whose
effective name is `m`. -/
def sourcesOf (providers : List ProviderConfig) (rm : RenameMap) (m : Str) :
    List (Str × Str) :=
  providers.flatMap (fun p =>
    (p.models.filter (fun o => effName (renamesFor rm p.name) o = m)).map
      (fun o => (p.name, o)))

/-- Step 2: `m` is a duplicate model — `len(model_to_providers[m]) > 1`. -/
def isDup (providers : List ProviderConfig) (rm : RenameMap) (m : Str) : Bool :=
  2 ≤ (sourcesOf providers rm m).length

/-- The `non_duplicate_models` dict of step 3 for provider `p`, in insertion
order: `{effective name ↦ original}` for each model of `p` whose effective
name is not duplicated.  Keys cannot repeat: a repeated key would have two
sources and hence be duplicated. -/
def nonDupRules (providers : List ProviderConfig) (rm : RenameMap) (p : ProviderConfig) :
    List (Str × Str) :=
  (p.models.filter (fun o => ! isDup providers rm (effName (renamesFor rm p.name) o))).map
    (fun o => (effName (renamesFor rm p.name) o, o))

/-- Deduplication keeping the first occurrence of each element, mirroring the
key order of a Python dict built by repeated insertion. -/
def firstDedup : List Str → List Str
  | [] => []
  | a :: t => a :: (firstDedup t).filter (fun b => b ≠ a)

/-- The keys of the `duplicate_in_provider` dict of step 3 for provider `p`,
in first-occurrence order. -/
def dupModelsOf (providers : List ProviderConfig) (rm : RenameMap) (p : ProviderConfig) :
    List Str :=
  firstDedup ((p.models.map (fun o => effName (renamesFor rm p.name) o)).filter
    (fun m => isDup providers rm m))

/-- The entry `duplicate_in_provider[m]`: the original names of `p`, in list order,
whose effective name is `m`. -/
def occsOf (rm : RenameMap) (p : ProviderConfig) (m : Str) : List Str :=
  p.models.filter (fun o => effName (renamesFor rm p.name) o = m)

/-- Decimal digit characters of a positive `n`, most significant first; the
first argument is recursion fuel (any bound on the number of digits). -/
def natToDigitsAux : Nat → Nat → Str
  | 0, _ => []
  | _ + 1, 0 => []
  | fuel + 1, n + 1 =>
      natToDigitsAux fuel ((n + 1) / 10) ++ [Char.ofNat (48 + (n + 1) % 10)]

/-- Decimal digit characters of `n` — the embedding of Python `str(n)` for a
non-negative int. -/
def natToDigits (n : Nat) : Str :=
  if n = 0 then ['0'] else natToDigitsAux n n

/-- The literal tail of the f-string `"{sanitized_provider}-0-no-aggregate-models"`. -/
def noAggSuffix : Str :=
  ['-', '0', '-', 'n', 'o', '-', 'a', 'g', 'g', 'r', 'e', 'g', 'a', 't', 'e', '-',
   'm', 'o', 'd', 'e', 'l', 's']

/-- Name of the non-duplicate group of a provider (line 159). -/
def zeroGroupName (p : Str) : Str := sanitize_name p ++ noAggSuffix

/-- Name of one duplicate-instance group (line 181):
`"{sanitized_provider}-{idx + 1}-{sanitized_model}"`. -/
def dupGroupName (p : Str) (k : Nat) (m : Str) : Str :=
  sanitize_name p ++ ['-'] ++ natToDigits k ++ ['-'] ++ sanitize_name m

/-- The word `"aggregate"`. -/
def aggregateWord : Str := ['a', 'g', 'g', 'r', 'e', 'g', 'a', 't', 'e']

/-- Name of the aggregate group planned for normalized model `m`
(config_generator.py, lines 832-834): `"aggregate-" + sanitize(m)`. -/
def aggGroupName (m : Str) : Str := aggregateWord ++ ['-'] ++ sanitize_name m

/-- Step 3 for one provider: its 0-group when it has non-duplicate models,
followed by one group per duplicate-model occurrence.  The index `idx + 1`
comes from `enumerate(original_names)` nested inside the per-model loop, so
it restarts at 1 for every duplicate normalized model. -/
def groupsOfProvider (providers : List ProviderConfig) (rm : RenameMap)
    (p : ProviderConfig) : List SplitGroup :=
  (if nonDupRules providers rm p = [] then []
   else [{ group_name := zeroGroupName p.name
           provider_name := p.name
           base_url := p.base_url
           api_key := p.api_key
           channel_type := p.channel_type
           model_redirect_rules := nonDupRules providers rm p }]) ++
  (dupModelsOf providers rm p).flatMap (fun m =>
    (occsOf rm p m).enum.map (fun io =>
      { group_name := dupGroupName p.name (io.1 + 1) m
        provider_name := p.name
        base_url := p.base_url
        api_key := p.api_key
        channel_type := p.channel_type
        model_redirect_rules := [(m, io.2)] }))

/-- The list of standard groups returned by
`ProviderSplitter.split_providers` (lines 91-222). -/
def split_providers (providers : List ProviderConfig) (rm : RenameMap) :
    List SplitGroup :=
  providers.flatMap (groupsOfProvider providers rm)

/-- Keys of `model_to_providers`, in first-insertion order. -/
def allEffNames (providers : List ProviderConfig) (rm : RenameMap) : List Str :=
  firstDedup (providers.flatMap (fun p =>
    p.models.map (fun o => effName (renamesFor rm p.name) o)))

/-- Keys of `duplicate_models`, hence of the returned `aggregations` dict. -/
def dupKeys (providers : List ProviderConfig) (rm : RenameMap) : List Str :=
  (allEffNames providers rm).filter (fun m => isDup providers rm m)

/-- The body of step 4 for one duplicate model `m`: walk its sources and
collect, per source, the first group that offers `m` under that source's
original name and was not already collected (`seen_groups`). -/
def aggGroupsFor (groups : List SplitGroup) (m : Str) (sources : List (Str × Str)) :
    List Str :=
  sources.foldl (fun acc po =>
    match groups.find? (fun g =>
        g.provider_name = po.1 ∧ alookup g.model_redirect_rules m = some po.2 ∧
        g.group_name ∉ acc) with
    | some g => acc ++ [g.group_name]
    | none => acc) []

/-- The `aggregations` dict returned by `split_providers` (step 4). -/
def aggregations (providers : List ProviderConfig) (rm : RenameMap) :
    List (Str × List Str) :=
  (dupKeys providers rm).map (fun m =>
    (m, aggGroupsFor (split_providers providers rm) m (sourcesOf providers rm m)))

/-! ### Generic list and lookup lemmas -/

lemma alookup_mem {α β : Type} [DecidableEq α] {l : List (α × β)} {k : α} {v : β}
    (h : alookup l k = some v) : (k, v) ∈ l := by
  induction l with
  | nil => simp [alookup] at h
  | cons a t ih =>
    obtain ⟨k1, v1⟩ := a
    rw [alookup] at h
    by_cases hk : k = k1
    · rw [if_pos hk] at h
      simp only [Option.some.injEq] at h
      subst hk; subst h
      exact List.mem_cons_self _ _
    · rw [if_neg hk] at h
      exact List.mem_cons_of_mem _ (ih h)

lemma alookup_eq_some {α β : Type} [DecidableEq α] {l : List (α × β)} {k : α} {v : β}
    (hm : (k, v) ∈ l) (huniq : ∀ w, (k, w) ∈ l → w = v) : alookup l k = some v := by
  induction l with
  | nil => simp at hm
  | cons a t ih =>
    obtain ⟨k1, v1⟩ := a
    rw [alookup]
    by_cases hk : k = k1
    · rw [if_pos hk]
      subst hk
      exact congrArg some (huniq v1 (List.mem_cons_self _ _))
    · rw [if_neg hk]
      rcases List.mem_cons.mp hm with heq | hm2
      · exact absurd (congrArg Prod.fst heq) hk
      · exact ih hm2 (fun w hw => huniq w (List.mem_cons_of_mem _ hw))

lemma two_le_length_of_mem {α : Type} {a b : α} {l : List α} (ha : a ∈ l) (hb : b ∈ l)
    (hab : a ≠ b) : 2 ≤ l.length := by
  match l with
  | [] => simp at ha
  | [x] =>
    simp only [List.mem_singleton] at ha hb
    exact absurd (ha.trans hb.symm) hab
  | x :: y :: t => simp only [List.length_cons]; omega

lemma countP_flatMap {α β : Type} (l : List α) (f : α → List β) (pr : β → Bool) :
    (l.flatMap f).countP pr = (l.map (fun a => (f a).countP pr)).sum := by
  induction l with
  | nil => rfl
  | cons a t ih => simp [List.flatMap_cons, List.countP_append, ih]

lemma countP_flatMap_single {α β : Type} (l : List α) (f : α → List β) (pr : β → Bool)
    (P : α → Prop) [DecidablePred P]
    (huniq : l.countP (fun a => decide (P a)) = 1)
    (h1 : ∀ a ∈ l, P a → (f a).countP pr = 1)
    (h0 : ∀ a ∈ l, ¬P a → (f a).countP pr = 0) :
    (l.flatMap f).countP pr = 1 := by
  induction l with
  | nil => simp [List.countP_nil] at huniq
  | cons a t ih =>
    rw [List.flatMap_cons, List.countP_append]
    simp only [List.countP_cons, decide_eq_true_eq] at huniq
    by_cases hP : P a
    · rw [if_pos hP] at huniq
      have ht : t.countP (fun a => decide (P a)) = 0 := by omega
      have hz : ∀ b ∈ t, (f b).countP pr = 0 := by
        intro b hb
        rw [List.countP_eq_zero] at ht
        have := ht b hb
        simp only [decide_eq_true_eq] at this
        exact h0 b (List.mem_cons_of_mem _ hb) this
      have : (t.flatMap f).countP pr = 0 := by
        rw [countP_flatMap, List.sum_eq_zero]
        intro x hx
        obtain ⟨b, hb, rfl⟩ := List.mem_map.mp hx
        exact hz b hb
      rw [this, h1 a (List.mem_cons_self _ _) hP]
    · have ha0 : (f a).countP pr = 0 := h0 a (List.mem_cons_self _ _) hP
      rw [ha0]
      rw [if_neg hP, Nat.add_zero] at huniq
      rw [ih huniq (fun b hb => h1 b (List.mem_cons_of_mem _ hb))
        (fun b hb => h0 b (List.mem_cons_of_mem _ hb))]

lemma mem_firstDedup {a : Str} : ∀ {l : List Str}, a ∈ firstDedup l ↔ a ∈ l := by
  intro l
  induction l with
  | nil => simp [firstDedup]
  | cons b t ih =>
    rw [firstDedup]
    constructor
    · intro h
      rcases List.mem_cons.mp h with rfl | h2
      · exact List.mem_cons_self _ _
      · exact List.mem_cons_of_mem _ (ih.mp (List.mem_of_mem_filter h2))
    · intro h
      rcases List.mem_cons.mp h with rfl | h2
      · exact List.mem_cons_self _ _
      · by_cases hab : a = b
        · subst hab; exact List.mem_cons_self _ _
        · refine List.mem_cons_of_mem _ ?_
          exact List.mem_filter.mpr ⟨ih.mpr h2, by simpa using hab⟩

lemma nodup_firstDedup : ∀ l : List Str, (firstDedup l).Nodup := by
  intro l
  induction l with
  | nil => simp [firstDedup]
  | cons b t ih =>
    rw [firstDedup]
    refine List.nodup_cons.mpr ⟨?_, ih.filter _⟩
    intro hmem
    have := List.mem_filter.mp hmem
    simp at this

/-! ### C2: aggregation keys -/

/-- C2: a normalized model name is a key of the returned `aggregations`
mapping iff at least two `(provider name, original model name)` pairs of the
input catalog (counted as catalog occurrences, i.e. the entries of
`model_to_providers[m]`) have that effective normalized name. -/
theorem aggregation_keys_iff_two_sources (providers : List ProviderConfig)
    (rm : RenameMap) (m : Str) :
    m ∈ (aggregations providers rm).map Prod.fst ↔
      2 ≤ (sourcesOf providers rm m).length := by
  have hkeys : (aggregations providers rm).map Prod.fst = dupKeys providers rm := by
    simp [aggregations, List.map_map, Function.comp_def]
  rw [hkeys, dupKeys]
  constructor
  · intro h
    have := List.mem_filter.mp h
    simpa [isDup] using this.2
  · intro h
    refine List.mem_filter.mpr ⟨?_, by simpa [isDup] using h⟩
    rw [allEffNames, mem_firstDedup]
    have hne : sourcesOf providers rm m ≠ [] := by
      intro hnil; rw [hnil] at h; simp at h
    obtain ⟨po, hpo⟩ := List.exists_mem_of_ne_nil _ hne
    simp only [sourcesOf, List.mem_flatMap, List.mem_map, List.mem_filter] at hpo
    obtain ⟨p, hp, o, ⟨ho, heff⟩, rfl⟩ := hpo
    simp only [List.mem_flatMap, List.mem_map]
    refine ⟨p, hp, o, ho, ?_⟩
    simpa using heff

/-! ### C1: partition completeness -/

lemma countP_eq_one_of_nodup {α : Type} [DecidableEq α] {l : List α} {a : α}
    (h : l.Nodup) (ha : a ∈ l) :
    l.countP (fun x => decide (x = a)) = 1 := by
  induction l with
  | nil => simp at ha
  | cons b t ih =>
    rw [List.nodup_cons] at h
    rcases List.mem_cons.mp ha with rfl | hat
    · have h0 : t.countP (fun x => decide (x = a)) = 0 := by
        rw [List.countP_eq_zero]
        intro x hx
        simp only [decide_eq_true_eq]
        rintro rfl
        exact h.1 hx
      rw [List.countP_cons_of_pos _ _ (by simp), h0]
    · rw [List.countP_cons_of_neg, ih h.2 hat]
      simp only [decide_eq_true_eq]
      rintro rfl
      exact h.1 hat

lemma countP_enum_eq {α : Type} [DecidableEq α] (l : List α) (a : α) :
    l.enum.countP (fun io => decide (io.2 = a)) = l.countP (fun x => decide (x = a)) := by
  have h := List.countP_map (fun x => decide (x = a)) Prod.snd l.enum
  rw [List.enum_map_snd] at h
  exact h.symm

lemma countP_map_iff {α β : Type} (l : List α) (f : α → β) (p : β → Bool) (q : α → Bool)
    (h : ∀ a ∈ l, p (f a) = q a) : (l.map f).countP p = l.countP q := by
  induction l with
  | nil => rfl
  | cons a t ih =>
    simp only [List.map_cons, List.countP_cons, h a (List.mem_cons_self _ _),
      ih (fun b hb => h b (List.mem_cons_of_mem _ hb))]

lemma countP_name_eq_one {providers : List ProviderConfig} {p : ProviderConfig}
    (hpn : (providers.map (fun q => q.name)).Nodup) (hp : p ∈ providers) :
    providers.countP (fun q => decide (q.name = p.name)) = 1 := by
  induction providers with
  | nil => simp at hp
  | cons q t ih =>
    simp only [List.map_cons, List.nodup_cons] at hpn
    rcases List.mem_cons.mp hp with heq | hpt
    · subst heq
      have h0 : t.countP (fun r => decide (r.name = p.name)) = 0 := by
        rw [List.countP_eq_zero]
        intro b hb
        simp only [decide_eq_true_eq]
        intro hname
        exact hpn.1 (hname ▸ List.mem_map_of_mem (fun r => r.name) hb)
      simp [List.countP_cons, h0]
    · rw [List.countP_cons_of_neg, ih hpn.2 hpt]
      simp only [decide_eq_true_eq]
      intro hname
      refine hpn.1 ?_
      rw [hname]
      exact List.mem_map_of_mem (fun r => r.name) hpt

lemma provider_name_of_mem_groups {providers : List ProviderConfig} {rm : RenameMap}
    {q : ProviderConfig} {g : SplitGroup} (hg : g ∈ groupsOfProvider providers rm q) :
    g.provider_name = q.name := by
  simp only [groupsOfProvider, List.mem_append, List.mem_flatMap, List.mem_map] at hg
  rcases hg with hg | ⟨m, _, io, _, rfl⟩
  · by_cases hc : nonDupRules providers rm q = []
    · rw [if_pos hc] at hg; simp at hg
    · rw [if_neg hc] at hg
      simp only [List.mem_singleton] at hg
      subst hg; rfl
  · rfl

lemma isDup_of_mem_dupModels {providers : List ProviderConfig} {rm : RenameMap}
    {p : ProviderConfig} {m : Str} (hm : m ∈ dupModelsOf providers rm p) :
    isDup providers rm m = true := by
  rw [dupModelsOf, mem_firstDedup] at hm
  exact (List.mem_filter.mp hm).2

lemma source_mem_of_model {providers : List ProviderConfig} {rm : RenameMap}
    {p : ProviderConfig} (hp : p ∈ providers) {o : Str} (ho : o ∈ p.models) :
    (p.name, o) ∈ sourcesOf providers rm (effName (renamesFor rm p.name) o) := by
  simp only [sourcesOf, List.mem_flatMap, List.mem_map, List.mem_filter]
  exact ⟨p, hp, o, ⟨ho, by simp⟩, rfl⟩

lemma source_mem_of_model_eq {providers : List ProviderConfig} {rm : RenameMap}
    {p : ProviderConfig} (hp : p ∈ providers) {o m : Str} (ho : o ∈ p.models)
    (he : effName (renamesFor rm p.name) o = m) :
    (p.name, o) ∈ sourcesOf providers rm m := by
  subst he; exact source_mem_of_model hp ho

/-- If two distinct original names of one catalog provider share an effective
name, that name is a duplicate model. -/
lemma isDup_of_two_models {providers : List ProviderConfig} {rm : RenameMap}
    {p : ProviderConfig} (hp : p ∈ providers) {o w m : Str}
    (ho : o ∈ p.models) (hw : w ∈ p.models) (how : o ≠ w)
    (heo : effName (renamesFor rm p.name) o = m)
    (hew : effName (renamesFor rm p.name) w = m) :
    isDup providers rm m = true := by
  simp only [isDup, decide_eq_true_eq]
  exact two_le_length_of_mem (source_mem_of_model_eq hp ho heo)
    (source_mem_of_model_eq hp hw hew) (by simp [how])

/-- C1: partition completeness.  For a catalog with pairwise-distinct provider
names (providers are keyed by name) in which each provider's model list holds
distinct original names, and for every rename map, each `(provider, original
model)` pair of the catalog appears — as the redirect-rule entry mapping its
effective normalized name to that original name — in exactly one `SplitGroup`
returned by `split_providers`. -/
theorem split_providers_partition (providers : List ProviderConfig) (rm : RenameMap)
    (hpn : (providers.map (fun q => q.name)).Nodup)
    (hnd : ∀ q ∈ providers, q.models.Nodup)
    (p : ProviderConfig) (hp : p ∈ providers) (o : Str) (ho : o ∈ p.models) :
    (split_providers providers rm).countP
      (fun g => decide (g.provider_name = p.name ∧
        alookup g.model_redirect_rules (effName (renamesFor rm p.name) o) = some o)) = 1 := by
  rw [split_providers]
  apply countP_flatMap_single _ _ _ (fun q => q.name = p.name)
  · exact countP_name_eq_one hpn hp
  · -- the provider named p.name contributes exactly one matching group
    intro q hq hqname
    have hqp : q = p := List.inj_on_of_nodup_map hpn hq hp hqname
    subst hqp
    have hmodels : q.models.Nodup := hnd q hq
    rw [groupsOfProvider, List.countP_append]
    by_cases hdup : isDup providers rm (effName (renamesFor rm q.name) o) = true
    · -- duplicate model: counted once among the duplicate-instance groups
      have hzero : (if nonDupRules providers rm q = [] then ([] : List SplitGroup)
          else [{ group_name := zeroGroupName q.name, provider_name := q.name,
                  base_url := q.base_url, api_key := q.api_key,
                  channel_type := q.channel_type,
                  model_redirect_rules := nonDupRules providers rm q }] :
          List SplitGroup).countP
          (fun g => decide (g.provider_name = q.name ∧
            alookup g.model_redirect_rules (effName (renamesFor rm q.name) o) = some o)) = 0 := by
        by_cases hc : nonDupRules providers rm q = []
        · rw [if_pos hc]; rfl
        · rw [if_neg hc]
          rw [List.countP_eq_zero]
          intro g hg
          simp only [List.mem_singleton] at hg
          subst hg
          simp only [decide_eq_true_eq, not_and]
          intro _ hlk
          have hmem := alookup_mem hlk
          simp only [nonDupRules, List.mem_map, List.mem_filter] at hmem
          obtain ⟨o2, ⟨-, hnd2⟩, ho2⟩ := hmem
          have h1 : effName (renamesFor rm q.name) o2 = effName (renamesFor rm q.name) o :=
            congrArg Prod.fst ho2
          rw [h1] at hnd2
          simp only [Bool.not_eq_true'] at hnd2
          rw [hnd2] at hdup
          exact Bool.false_ne_true hdup
      rw [hzero, Nat.zero_add]
      apply countP_flatMap_single _ _ _
        (fun m => m = effName (renamesFor rm q.name) o)
      · refine countP_eq_one_of_nodup (nodup_firstDedup _) ?_
        rw [dupModelsOf, mem_firstDedup, List.mem_filter]
        exact ⟨List.mem_map_of_mem _ ho, hdup⟩
      · intro m hm hme
        subst hme
        rw [countP_map_iff _ _ _ (fun io : Nat × Str => decide (io.2 = o)) ?_,
          countP_enum_eq]
        · apply countP_eq_one_of_nodup (hmodels.filter _)
          simp only [occsOf, List.mem_filter]
          exact ⟨ho, by simp⟩
        · intro io hio
          rw [decide_eq_decide]
          simp [alookup]
      · intro m hm hme
        rw [List.countP_eq_zero]
        intro g hg
        simp only [List.mem_map] at hg
        obtain ⟨io, -, rfl⟩ := hg
        simp only [decide_eq_true_eq, not_and]
        intro _
        rw [alookup]
        rw [if_neg (fun h => hme h.symm)]
        simp [alookup]
    · -- non-duplicate model: counted once in the 0-group, never in dup groups
      have hfmem : (effName (renamesFor rm q.name) o, o) ∈ nonDupRules providers rm q := by
        simp only [nonDupRules, List.mem_map, List.mem_filter]
        exact ⟨o, ⟨ho, by simp [hdup]⟩, rfl⟩
      have hne : nonDupRules providers rm q ≠ [] := by
        intro hnil; rw [hnil] at hfmem; simp at hfmem
      have hlk : alookup (nonDupRules providers rm q)
          (effName (renamesFor rm q.name) o) = some o := by
        apply alookup_eq_some hfmem
        intro w hw
        simp only [nonDupRules, List.mem_map, List.mem_filter] at hw
        obtain ⟨o2, ⟨ho2, -⟩, heq⟩ := hw
        have h1 : effName (renamesFor rm q.name) o2 = effName (renamesFor rm q.name) o :=
          congrArg Prod.fst heq
        have h2 : o2 = w := congrArg Prod.snd heq
        subst h2
        by_contra hwo
        have := isDup_of_two_models hq ho2 ho (fun hctr => hwo (hctr ▸ rfl)) h1 rfl
        rw [this] at hdup
        exact hdup rfl
      rw [if_neg hne]
      have hone : ([{ group_name := zeroGroupName q.name, provider_name := q.name,
                      base_url := q.base_url, api_key := q.api_key,
                      channel_type := q.channel_type,
                      model_redirect_rules := nonDupRules providers rm q }] :
          List SplitGroup).countP
          (fun g => decide (g.provider_name = q.name ∧
            alookup g.model_redirect_rules (effName (renamesFor rm q.name) o) = some o)) = 1 := by
        rw [List.countP_cons_of_pos, List.countP_nil]
        simp only [decide_eq_true_eq]
        exact ⟨trivial, hlk⟩
      rw [hone]
      have hz : ((dupModelsOf providers rm q).flatMap (fun m =>
          (occsOf rm q m).enum.map (fun io =>
            ({ group_name := dupGroupName q.name (io.1 + 1) m,
               provider_name := q.name, base_url := q.base_url, api_key := q.api_key,
               channel_type := q.channel_type,
               model_redirect_rules := [(m, io.2)] } : SplitGroup)))).countP
          (fun g => decide (g.provider_name = q.name ∧
            alookup g.model_redirect_rules (effName (renamesFor rm q.name) o) = some o)) = 0 := by
        rw [List.countP_eq_zero]
        intro g hg
        simp only [List.mem_flatMap, List.mem_map] at hg
        obtain ⟨m, hm, io, -, rfl⟩ := hg
        simp only [decide_eq_true_eq, not_and]
        intro _
        rw [alookup]
        by_cases hem : effName (renamesFor rm q.name) o = m
        · rw [hem] at hdup
          exact absurd (isDup_of_mem_dupModels hm) hdup
        · rw [if_neg hem]
          simp [alookup]
      rw [hz]
  · -- providers with a different name contribute nothing
    intro q hq hqname
    rw [List.countP_eq_zero]
    intro g hg
    simp only [decide_eq_true_eq, not_and]
    intro hgp
    rw [provider_name_of_mem_groups hg] at hgp
    exact absurd hgp hqname

/-- Witness for C1, at the catalog A={m1,m2}, B={m1} (the spec's §8 scenario)
with no renames, for provider A and original model m1. -/
theorem split_providers_partition_witness :
    (split_providers
        [⟨"A".toList, "u".toList, "k".toList, "openai".toList,
          ["m1".toList, "m2".toList]⟩,
         ⟨"B".toList, "u".toList, "k".toList, "openai".toList, ["m1".toList]⟩] []).countP
      (fun g => decide (g.provider_name = "A".toList ∧
        alookup g.model_redirect_rules
          (effName (renamesFor [] "A".toList) "m1".toList) = some "m1".toList)) = 1 :=
  split_providers_partition
    [⟨"A".toList, "u".toList, "k".toList, "openai".toList, ["m1".toList, "m2".toList]⟩,
     ⟨"B".toList, "u".toList, "k".toList, "openai".toList, ["m1".toList]⟩] []
    (by decide) (by decide)
    ⟨"A".toList, "u".toList, "k".toList, "openai".toList, ["m1".toList, "m2".toList]⟩
    (by decide) "m1".toList (by decide)

/-! ### C3: duplicate-group naming -/

/-- C3 counterexample: providers a={m1,m2} and b={m1,m2} make both m1 and m2
duplicate models.  Provider a offers two *different* duplicate models, yet its
two groups are `a-1-m1` and `a-1-m2` — index 1 twice — and no index-2 group
exists, contradicting the claimed single per-provider counter ("indices 1 and
2, never 1 and 1"). -/
theorem dup_group_counter_counterexample :
    ((split_providers
        [⟨"a".toList, "u".toList, "k".toList, "openai".toList,
          ["m1".toList, "m2".toList]⟩,
         ⟨"b".toList, "u".toList, "k".toList, "openai".toList,
          ["m1".toList, "m2".toList]⟩] []).map (fun g => g.group_name) =
      ["a-1-m1".toList, "a-1-m2".toList, "b-1-m1".toList, "b-1-m2".toList]) ∧
    "a-2-m1".toList ∉ (split_providers
        [⟨"a".toList, "u".toList, "k".toList, "openai".toList,
          ["m1".toList, "m2".toList]⟩,
         ⟨"b".toList, "u".toList, "k".toList, "openai".toList,
          ["m1".toList, "m2".toList]⟩] []).map (fun g => g.group_name) ∧
    "a-2-m2".toList ∉ (split_providers
        [⟨"a".toList, "u".toList, "k".toList, "openai".toList,
          ["m1".toList, "m2".toList]⟩,
         ⟨"b".toList, "u".toList, "k".toList, "openai".toList,
          ["m1".toList, "m2".toList]⟩] []).map (fun g => g.group_name) := by
  refine ⟨by decide, by decide, by decide⟩

/-- C3 amended: the duplicate-instance counter is per duplicate normalized
model within a provider, not a single per-provider counter.  For every
provider `p` of the catalog, every duplicate model `m` it offers, and every
occurrence index `j` (0-based) of `m` within `p`'s model list, the split
contains a group named `"<sanitize(p)>-<j+1>-<sanitize(m)>"` whose sole
redirect rule maps `m` to that occurrence's original name; the index restarts
at 1 for each distinct duplicate model. -/
theorem dup_group_naming (providers : List ProviderConfig) (rm : RenameMap)
    (p : ProviderConfig) (hp : p ∈ providers)
    (m : Str) (hm : m ∈ dupModelsOf providers rm p)
    (j : Nat) (hj : j < (occsOf rm p m).length) :
    ∃ g ∈ split_providers providers rm,
      g.provider_name = p.name ∧
      g.group_name = dupGroupName p.name (j + 1) m ∧
      g.model_redirect_rules = [(m, (occsOf rm p m).get ⟨j, hj⟩)] := by
  have hjl : j < (occsOf rm p m).enum.length := by
    rw [List.enum_length]; exact hj
  have hmem : (j, (occsOf rm p m).get ⟨j, hj⟩) ∈ (occsOf rm p m).enum := by
    have hg : (occsOf rm p m).enum[j] = (j, (occsOf rm p m)[j]) :=
      List.getElem_enum (occsOf rm p m) j hjl
    have := List.getElem_mem hjl
    rw [hg] at this
    simpa [List.get_eq_getElem] using this
  refine ⟨{ group_name := dupGroupName p.name (j + 1) m, provider_name := p.name,
            base_url := p.base_url, api_key := p.api_key,
            channel_type := p.channel_type,
            model_redirect_rules := [(m, (occsOf rm p m).get ⟨j, hj⟩)] },
    ?_, rfl, rfl, rfl⟩
  rw [split_providers]
  refine List.mem_flatMap.mpr ⟨p, hp, ?_⟩
  rw [groupsOfProvider]
  refine List.mem_append.mpr (Or.inr ?_)
  refine List.mem_flatMap.mpr ⟨m, hm, ?_⟩
  exact List.mem_map.mpr ⟨(j, (occsOf rm p m).get ⟨j, hj⟩), hmem, rfl⟩

/-- Witness for the amended C3, at the counterexample's catalog, provider a,
duplicate model m1, occurrence 0. -/
theorem dup_group_naming_witness :
    ∃ g ∈ split_providers
        [⟨"a".toList, "u".toList, "k".toList, "openai".toList,
          ["m1".toList, "m2".toList]⟩,
         ⟨"b".toList, "u".toList, "k".toList, "openai".toList,
          ["m1".toList, "m2".toList]⟩] [],
      g.provider_name = "a".toList ∧
      g.group_name = dupGroupName "a".toList (0 + 1) "m1".toList ∧
      g.model_redirect_rules =
        [("m1".toList,
          (occsOf []
            ⟨"a".toList, "u".toList, "k".toList, "openai".toList,
             ["m1".toList, "m2".toList]⟩ "m1".toList).get ⟨0, by decide⟩)] :=
  dup_group_naming
    [⟨"a".toList, "u".toList, "k".toList, "openai".toList, ["m1".toList, "m2".toList]⟩,
     ⟨"b".toList, "u".toList, "k".toList, "openai".toList, ["m1".toList, "m2".toList]⟩] []
    ⟨"a".toList, "u".toList, "k".toList, "openai".toList, ["m1".toList, "m2".toList]⟩
    (by decide) "m1".toList (by decide) 0 (by decide)

/-! ### C9: group-name uniqueness — string decomposition lemmas -/

lemma natToDigitsAux_zero : ∀ fuel, natToDigitsAux fuel 0 = [] := by
  intro fuel
  cases fuel <;> rfl

lemma toNat_digitChar {d : Nat} (h : d < 10) : (Char.ofNat (48 + d)).toNat = 48 + d := by
  interval_cases d <;> decide

lemma digitChar_ne_dash {d : Nat} (h : d < 10) : Char.ofNat (48 + d) ≠ '-' := by
  interval_cases d <;> decide

lemma digitChar_ne_zeroChar {d : Nat} (h : d < 10) (hd : d ≠ 0) :
    Char.ofNat (48 + d) ≠ '0' := by
  interval_cases d
  · exact absurd rfl hd
  all_goals decide

lemma natToDigitsAux_ne_dash : ∀ fuel n, ∀ c ∈ natToDigitsAux fuel n, c ≠ '-' := by
  intro fuel
  induction fuel with
  | zero => intro n c hc; simp [natToDigitsAux] at hc
  | succ f ih =>
    intro n c hc
    match n with
    | 0 => simp [natToDigitsAux] at hc
    | k + 1 =>
      rw [natToDigitsAux] at hc
      rcases List.mem_append.mp hc with h | h
      · exact ih _ c h
      · simp only [List.mem_singleton] at h
        subst h
        exact digitChar_ne_dash (Nat.mod_lt _ (by omega))

lemma natToDigitsAux_ne_nil {fuel n : Nat} (h1 : 1 ≤ n) (h2 : n ≤ fuel) :
    natToDigitsAux fuel n ≠ [] := by
  match fuel, n with
  | 0, n => omega
  | f + 1, 0 => omega
  | f + 1, k + 1 => rw [natToDigitsAux]; simp

lemma natToDigitsAux_head : ∀ fuel n, 1 ≤ n → n ≤ fuel →
    ∀ c, (natToDigitsAux fuel n).head? = some c → c ≠ '0' := by
  intro fuel
  induction fuel with
  | zero => intro n h1 h2 c hc; omega
  | succ f ih =>
    intro n h1 h2 c hc
    match n, h1 with
    | k + 1, _ =>
      rw [natToDigitsAux] at hc
      by_cases hq : (k + 1) / 10 = 0
      · rw [hq, natToDigitsAux_zero, List.nil_append] at hc
        simp only [List.head?_cons, Option.some.injEq] at hc
        subst hc
        have hm : (k + 1) % 10 ≠ 0 := by omega
        exact digitChar_ne_zeroChar (Nat.mod_lt _ (by omega)) hm
      · have hdivle : (k + 1) / 10 ≤ f := by omega
        have hne : natToDigitsAux f ((k + 1) / 10) ≠ [] :=
          natToDigitsAux_ne_nil (by omega) hdivle
        obtain ⟨d, ds, hds⟩ := List.exists_cons_of_ne_nil hne
        rw [hds, List.cons_append] at hc
        simp only [List.head?_cons, Option.some.injEq] at hc
        have hd0 := ih _ (by omega) hdivle d (by rw [hds]; rfl)
        rwa [hc] at hd0

lemma natToDigitsAux_inj (n : Nat) : ∀ m fuel1 fuel2, 1 ≤ n → n ≤ fuel1 →
    1 ≤ m → m ≤ fuel2 →
    natToDigitsAux fuel1 n = natToDigitsAux fuel2 m → n = m := by
  induction n using Nat.strong_induction_on with
  | _ n ih =>
    intro m fuel1 fuel2 h1 h2 h3 h4 heq
    match fuel1, n, fuel2, m with
    | 0, n, _, _ => omega
    | _ + 1, 0, _, _ => omega
    | _ + 1, _ + 1, 0, _ => omega
    | _ + 1, _ + 1, _ + 1, 0 => omega
    | f1 + 1, a + 1, f2 + 1, b + 1 =>
      rw [natToDigitsAux, natToDigitsAux] at heq
      have hpre : natToDigitsAux f1 ((a + 1) / 10) = natToDigitsAux f2 ((b + 1) / 10) := by
        have := congrArg List.dropLast heq
        rwa [List.dropLast_append_of_ne_nil _ (by simp),
          List.dropLast_append_of_ne_nil _ (by simp), List.dropLast_single,
          List.dropLast_single, List.append_nil, List.append_nil] at this
      have hlast : Char.ofNat (48 + (a + 1) % 10) = Char.ofNat (48 + (b + 1) % 10) := by
        have := congrArg List.getLast? heq
        rwa [List.getLast?_append_of_ne_nil _ (by simp),
          List.getLast?_append_of_ne_nil _ (by simp), List.getLast?_singleton,
          List.getLast?_singleton, Option.some.injEq] at this
      have hmod : (a + 1) % 10 = (b + 1) % 10 := by
        have h48 := congrArg Char.toNat hlast
        rw [toNat_digitChar (Nat.mod_lt _ (by omega)),
          toNat_digitChar (Nat.mod_lt _ (by omega))] at h48
        omega
      by_cases hq : (a + 1) / 10 = 0
      · rw [hq, natToDigitsAux_zero] at hpre
        have hq2 : (b + 1) / 10 = 0 := by
          by_contra hq2
          exact natToDigitsAux_ne_nil (n := (b + 1) / 10) (by omega) (by omega) hpre.symm
        omega
      · have hq2 : (b + 1) / 10 ≠ 0 := by
          intro hz
          rw [hz, natToDigitsAux_zero] at hpre
          exact natToDigitsAux_ne_nil (n := (a + 1) / 10) (by omega) (by omega) hpre
        have hdiv : (a + 1) / 10 = (b + 1) / 10 :=
          ih ((a + 1) / 10) (by omega) ((b + 1) / 10) f1 f2 (by omega) (by omega)
            (by omega) (by omega) hpre
        omega

lemma natToDigits_inj {a b : Nat} (ha : 1 ≤ a) (hb : 1 ≤ b)
    (h : natToDigits a = natToDigits b) : a = b := by
  rw [natToDigits, if_neg (by omega), natToDigits, if_neg (by omega)] at h
  exact natToDigitsAux_inj a b a b ha le_rfl hb le_rfl h

lemma natToDigits_ne_dash {n : Nat} : ∀ c ∈ natToDigits n, c ≠ '-' := by
  intro c hc
  rw [natToDigits] at hc
  by_cases h : n = 0
  · rw [if_pos h] at hc
    simp only [List.mem_singleton] at hc
    subst hc; decide
  · rw [if_neg h] at hc
    exact natToDigitsAux_ne_dash n n c hc

lemma natToDigits_ne_nil {n : Nat} : natToDigits n ≠ [] := by
  rw [natToDigits]
  by_cases h : n = 0
  · rw [if_pos h]; simp
  · rw [if_neg h]; exact natToDigitsAux_ne_nil (by omega) le_rfl

lemma natToDigits_head {n : Nat} (hn : 1 ≤ n) :
    ∀ c, (natToDigits n).head? = some c → c ≠ '0' := by
  intro c hc
  rw [natToDigits, if_neg (by omega)] at hc
  exact natToDigitsAux_head n n hn le_rfl c hc

lemma takeWhile_append_dash {p rest : Str} (hp : '-' ∉ p) :
    (p ++ '-' :: rest).takeWhile (fun c => !(c == '-')) = p := by
  induction p with
  | nil => simp [List.takeWhile_cons]
  | cons a t ih =>
    have ha : a ≠ '-' := fun h => hp (h ▸ List.mem_cons_self _ _)
    rw [List.cons_append, List.takeWhile_cons, if_pos (by simp [ha])]
    rw [ih (fun h => hp (List.mem_cons_of_mem _ h))]

lemma dropWhile_append_dash {p rest : Str} (hp : '-' ∉ p) :
    (p ++ '-' :: rest).dropWhile (fun c => !(c == '-')) = '-' :: rest := by
  induction p with
  | nil => simp [List.dropWhile_cons]
  | cons a t ih =>
    have ha : a ≠ '-' := fun h => hp (h ▸ List.mem_cons_self _ _)
    rw [List.cons_append, List.dropWhile_cons, if_pos (by simp [ha])]
    exact ih (fun h => hp (List.mem_cons_of_mem _ h))

/-- A group name of the shape `head ++ "-" ++ tail` with a hyphen-free head
determines head and tail uniquely. -/
lemma dash_encode_inj {p1 p2 t1 t2 : Str} (h1 : '-' ∉ p1) (h2 : '-' ∉ p2)
    (he : p1 ++ '-' :: t1 = p2 ++ '-' :: t2) : p1 = p2 ∧ t1 = t2 := by
  have htake := congrArg (List.takeWhile (fun c => !(c == '-'))) he
  rw [takeWhile_append_dash h1, takeWhile_append_dash h2] at htake
  have hdrop := congrArg (List.dropWhile (fun c => !(c == '-'))) he
  rw [dropWhile_append_dash h1, dropWhile_append_dash h2] at hdrop
  exact ⟨htake, (List.cons.injEq _ _ _ _).mp hdrop |>.2⟩

/-- The tail of the 0-group name after the provider part and its hyphen. -/
def zeroTail : Str :=
  ['0', '-', 'n', 'o', '-', 'a', 'g', 'g', 'r', 'e', 'g', 'a', 't', 'e', '-',
   'm', 'o', 'd', 'e', 'l', 's']

lemma zeroGroupName_eq (p : Str) :
    zeroGroupName p = sanitize_name p ++ '-' :: zeroTail := rfl

lemma dupGroupName_eq (p : Str) (k : Nat) (m : Str) :
    dupGroupName p k m =
      sanitize_name p ++ '-' :: (natToDigits k ++ '-' :: sanitize_name m) := by
  rw [dupGroupName]
  simp [List.append_assoc]

lemma aggGroupName_eq (m : Str) :
    aggGroupName m = aggregateWord ++ '-' :: sanitize_name m := by
  rw [aggGroupName]
  simp

/-- A name on which sanitization is a no-op and that contains no hyphen. -/
def CleanName (s : Str) : Prop := sanitize_name s = s ∧ '-' ∉ s

instance : DecidablePred CleanName := fun s =>
  inferInstanceAs (Decidable (sanitize_name s = s ∧ '-' ∉ s))

lemma cleanName_sanitized {s : Str} (h : CleanName s) : '-' ∉ sanitize_name s := by
  rw [h.1]; exact h.2

lemma natToDigits_not_mem_dash {n : Nat} : '-' ∉ natToDigits n :=
  fun h => natToDigits_ne_dash '-' h rfl

lemma zero_ne_dup {p1 p2 m : Str} {k : Nat} (hc1 : CleanName p1) (hc2 : CleanName p2)
    (hk : 1 ≤ k) : zeroGroupName p1 ≠ dupGroupName p2 k m := by
  intro h
  rw [zeroGroupName_eq, dupGroupName_eq] at h
  obtain ⟨-, htail⟩ := dash_encode_inj (cleanName_sanitized hc1) (cleanName_sanitized hc2) h
  obtain ⟨d, ds, hds⟩ := List.exists_cons_of_ne_nil (natToDigits_ne_nil (n := k))
  have hd := natToDigits_head hk d (by rw [hds]; rfl)
  rw [hds, List.cons_append] at htail
  have hhd := congrArg List.head? htail
  simp only [zeroTail, List.head?_cons, Option.some.injEq] at hhd
  exact hd hhd.symm

lemma zero_ne_agg {p m : Str} (hcp : CleanName p) (hcm : CleanName m) :
    zeroGroupName p ≠ aggGroupName m := by
  intro h
  rw [zeroGroupName_eq, aggGroupName_eq] at h
  obtain ⟨-, htail⟩ := dash_encode_inj (cleanName_sanitized hcp) (by decide) h
  have hmem : '-' ∈ zeroTail := by decide
  rw [htail] at hmem
  exact cleanName_sanitized hcm hmem

lemma dup_ne_agg {p m1 m2 : Str} {k : Nat} (hcp : CleanName p) (hcm : CleanName m2) :
    dupGroupName p k m1 ≠ aggGroupName m2 := by
  intro h
  rw [dupGroupName_eq, aggGroupName_eq] at h
  obtain ⟨-, htail⟩ := dash_encode_inj (cleanName_sanitized hcp) (by decide) h
  have hmem : '-' ∈ natToDigits k ++ '-' :: sanitize_name m1 :=
    List.mem_append.mpr (Or.inr (List.mem_cons_self _ _))
  rw [htail] at hmem
  exact cleanName_sanitized hcm hmem

/-! ### C9: group-name uniqueness — symbolic keys -/

/-- A symbolic descriptor for each planned group name. -/
inductive GroupKey : Type where
  | zero : Str → GroupKey
  | dup : Str → Nat → Str → GroupKey
  | agg : Str → GroupKey
deriving DecidableEq

/-- The concrete name each descriptor denotes. -/
def keyName : GroupKey → Str
  | .zero p => zeroGroupName p
  | .dup p k m => dupGroupName p k m
  | .agg m => aggGroupName m

/-- The descriptors of the standard groups of one provider, in order. -/
def keysOfProvider (providers : List ProviderConfig) (rm : RenameMap)
    (p : ProviderConfig) : List GroupKey :=
  (if nonDupRules providers rm p = [] then [] else [GroupKey.zero p.name]) ++
  (dupModelsOf providers rm p).flatMap (fun m =>
    (occsOf rm p m).enum.map (fun io => GroupKey.dup p.name (io.1 + 1) m))

/-- All descriptors of one planning pass: standard groups then aggregates. -/
def allKeys (providers : List ProviderConfig) (rm : RenameMap) : List GroupKey :=
  providers.flatMap (keysOfProvider providers rm) ++
    (dupKeys providers rm).map GroupKey.agg

/-- The conditions under which a descriptor's name is uniquely parseable. -/
def KeyOK : GroupKey → Prop
  | .zero p => CleanName p
  | .dup p k m => CleanName p ∧ 1 ≤ k ∧ CleanName m
  | .agg m => CleanName m

/-- The provider part carried by a descriptor, `none` for aggregates. -/
def keyProv : GroupKey → Option Str
  | .zero p => some p
  | .dup p _ _ => some p
  | .agg _ => none

lemma map_gname_groupsOf (providers : List ProviderConfig) (rm : RenameMap)
    (p : ProviderConfig) :
    (groupsOfProvider providers rm p).map (fun g => g.group_name) =
      (keysOfProvider providers rm p).map keyName := by
  rw [groupsOfProvider, keysOfProvider, List.map_append, List.map_append]
  congr 1
  · by_cases hc : nonDupRules providers rm p = [] <;> simp [hc, keyName]
  · rw [List.map_flatMap, List.map_flatMap]
    congr 1
    funext m
    rw [List.map_map, List.map_map]
    rfl

lemma all_names_eq (providers : List ProviderConfig) (rm : RenameMap) :
    (split_providers providers rm).map (fun g => g.group_name) ++
      (dupKeys providers rm).map aggGroupName =
    (allKeys providers rm).map keyName := by
  rw [allKeys, List.map_append]
  congr 1
  · rw [split_providers, List.map_flatMap, List.map_flatMap]
    congr 1
    funext p
    exact map_gname_groupsOf providers rm p
  · rw [List.map_map]
    rfl

lemma exists_model_of_mem_dupModels {providers : List ProviderConfig} {rm : RenameMap}
    {p : ProviderConfig} {m : Str} (hm : m ∈ dupModelsOf providers rm p) :
    ∃ o ∈ p.models, effName (renamesFor rm p.name) o = m := by
  rw [dupModelsOf, mem_firstDedup] at hm
  have := (List.mem_filter.mp hm).1
  simpa [List.mem_map] using this

lemma keyOK_of_mem {providers : List ProviderConfig} {rm : RenameMap}
    (hclean : ∀ p ∈ providers, CleanName p.name)
    (hmods : ∀ p ∈ providers, ∀ o ∈ p.models,
      CleanName (effName (renamesFor rm p.name) o)) :
    ∀ x ∈ allKeys providers rm, KeyOK x := by
  intro x hx
  rw [allKeys, List.mem_append] at hx
  rcases hx with hx | hx
  · rw [List.mem_flatMap] at hx
    obtain ⟨p, hp, hkx⟩ := hx
    rw [keysOfProvider, List.mem_append] at hkx
    rcases hkx with hkx | hkx
    · by_cases hc : nonDupRules providers rm p = []
      · rw [if_pos hc] at hkx; simp at hkx
      · rw [if_neg hc] at hkx
        simp only [List.mem_singleton] at hkx
        subst hkx
        exact hclean p hp
    · rw [List.mem_flatMap] at hkx
      obtain ⟨m, hm, hkx⟩ := hkx
      rw [List.mem_map] at hkx
      obtain ⟨io, -, rfl⟩ := hkx
      refine ⟨hclean p hp, by omega, ?_⟩
      obtain ⟨o, ho, heff⟩ := exists_model_of_mem_dupModels hm
      exact heff ▸ hmods p hp o ho
  · rw [List.mem_map] at hx
    obtain ⟨m, hm, rfl⟩ := hx
    rw [dupKeys, List.mem_filter] at hm
    have hm1 := hm.1
    rw [allEffNames, mem_firstDedup] at hm1
    obtain ⟨p, hp, hom⟩ := List.mem_flatMap.mp hm1
    obtain ⟨o, ho, rfl⟩ := List.mem_map.mp hom
    exact hmods p hp o ho

lemma keyName_inj {x y : GroupKey} (hx : KeyOK x) (hy : KeyOK y)
    (h : keyName x = keyName y) : x = y := by
  cases x with
  | zero p1 =>
    cases y with
    | zero p2 =>
      rw [keyName, keyName, zeroGroupName_eq, zeroGroupName_eq] at h
      obtain ⟨hp, -⟩ := dash_encode_inj (cleanName_sanitized hx) (cleanName_sanitized hy) h
      rw [hx.1, hy.1] at hp
      rw [hp]
    | dup p2 k m => exact absurd h (zero_ne_dup hx hy.1 hy.2.1)
    | agg m => exact absurd h (zero_ne_agg hx hy)
  | dup p1 k1 m1 =>
    cases y with
    | zero p2 => exact absurd h.symm (zero_ne_dup hy hx.1 hx.2.1)
    | dup p2 k2 m2 =>
      rw [keyName, keyName, dupGroupName_eq, dupGroupName_eq] at h
      obtain ⟨hp, htail⟩ :=
        dash_encode_inj (cleanName_sanitized hx.1) (cleanName_sanitized hy.1) h
      obtain ⟨hk, hmm⟩ :=
        dash_encode_inj natToDigits_not_mem_dash natToDigits_not_mem_dash htail
      rw [hx.1.1, hy.1.1] at hp
      rw [hx.2.2.1, hy.2.2.1] at hmm
      rw [hp, hmm, natToDigits_inj hx.2.1 hy.2.1 hk]
    | agg m2 => exact absurd h (dup_ne_agg hx.1 hy)
  | agg m1 =>
    cases y with
    | zero p2 => exact absurd h.symm (zero_ne_agg hy hx)
    | dup p2 k2 m2 => exact absurd h.symm (dup_ne_agg hy.1 hx)
    | agg m2 =>
      rw [keyName, keyName, aggGroupName_eq, aggGroupName_eq] at h
      obtain ⟨-, hm⟩ := dash_encode_inj (by decide) (by decide) h
      rw [hx.1, hy.1] at hm
      rw [hm]

lemma keyProv_of_mem {providers : List ProviderConfig} {rm : RenameMap}
    {p : ProviderConfig} {x : GroupKey} (hx : x ∈ keysOfProvider providers rm p) :
    keyProv x = some p.name := by
  rw [keysOfProvider, List.mem_append] at hx
  rcases hx with hx | hx
  · by_cases hc : nonDupRules providers rm p = []
    · rw [if_pos hc] at hx; simp at hx
    · rw [if_neg hc] at hx
      simp only [List.mem_singleton] at hx
      subst hx; rfl
  · rw [List.mem_flatMap] at hx
    obtain ⟨m, -, hx⟩ := hx
    obtain ⟨io, -, rfl⟩ := List.mem_map.mp hx
    rfl

lemma keysOfProvider_nodup (providers : List ProviderConfig) (rm : RenameMap)
    (p : ProviderConfig) : (keysOfProvider providers rm p).Nodup := by
  rw [keysOfProvider]
  apply List.Nodup.append
  · by_cases hc : nonDupRules providers rm p = [] <;> simp [hc]
  · rw [List.nodup_flatMap]
    constructor
    · intro m hm
      have heq : (occsOf rm p m).enum.map (fun io => GroupKey.dup p.name (io.1 + 1) m) =
          ((occsOf rm p m).enum.map Prod.fst).map
            (fun j => GroupKey.dup p.name (j + 1) m) := by
        rw [List.map_map]; rfl
      rw [heq, List.enum_map_fst]
      refine List.Nodup.map ?_ (List.nodup_range _)
      intro a b hab
      simp only [GroupKey.dup.injEq] at hab
      omega
    · have hnd : (dupModelsOf providers rm p).Nodup := by
        rw [dupModelsOf]; exact nodup_firstDedup _
      refine hnd.imp ?_
      intro m1 m2 hne x hx1 hx2
      obtain ⟨io1, -, rfl⟩ := List.mem_map.mp hx1
      obtain ⟨io2, -, hx⟩ := List.mem_map.mp hx2
      simp only [GroupKey.dup.injEq] at hx
      exact hne hx.2.2.symm
  · intro x hx1 hx2
    have hx1' : x = GroupKey.zero p.name := by
      by_cases hc : nonDupRules providers rm p = []
      · rw [if_pos hc] at hx1; simp at hx1
      · rw [if_neg hc] at hx1
        simpa using hx1
    subst hx1'
    rw [List.mem_flatMap] at hx2
    obtain ⟨m, -, hx⟩ := hx2
    obtain ⟨io, -, hx⟩ := List.mem_map.mp hx
    simp at hx

lemma allKeys_nodup {providers : List ProviderConfig} {rm : RenameMap}
    (hpn : (providers.map (fun q => q.name)).Nodup) :
    (allKeys providers rm).Nodup := by
  rw [allKeys]
  apply List.Nodup.append
  · rw [List.nodup_flatMap]
    refine ⟨fun p _ => keysOfProvider_nodup providers rm p, ?_⟩
    have hpairs : List.Pairwise (fun p q : ProviderConfig => p.name ≠ q.name) providers :=
      (List.pairwise_map.mp hpn)
    refine hpairs.imp ?_
    intro p q hne x hx1 hx2
    have h1 := keyProv_of_mem hx1
    have h2 := keyProv_of_mem hx2
    rw [h1] at h2
    exact hne (Option.some.injEq _ _ ▸ h2)
  · have : (dupKeys providers rm).Nodup := by
      rw [dupKeys, allEffNames]
      exact (nodup_firstDedup _).filter _
    refine this.map ?_
    intro a b hab
    simpa using hab
  · intro x hx1 hx2
    rw [List.mem_flatMap] at hx1
    obtain ⟨p, -, hx1⟩ := hx1
    have h1 := keyProv_of_mem hx1
    obtain ⟨m, -, rfl⟩ := List.mem_map.mp hx2
    simp [keyProv] at h1

/-- C9 counterexample: the distinct provider names `A` and `a` both sanitize
to `a`, so their 0-groups collide on the name `a-0-no-aggregate-models`,
refuting uniqueness under sanitizer collisions. -/
theorem group_name_uniqueness_counterexample :
    "A".toList ≠ "a".toList ∧
    ¬ (((split_providers
        [⟨"A".toList, "u".toList, "k".toList, "openai".toList, ["mA".toList]⟩,
         ⟨"a".toList, "u".toList, "k".toList, "openai".toList, ["mB".toList]⟩] []).map
          (fun g => g.group_name)) ++
       (dupKeys
        [⟨"A".toList, "u".toList, "k".toList, "openai".toList, ["mA".toList]⟩,
         ⟨"a".toList, "u".toList, "k".toList, "openai".toList, ["mB".toList]⟩] []).map
          aggGroupName).Nodup :=
  ⟨by decide, by decide⟩

/-- C9 amended: all group names of one planning pass — standard group names
and derived aggregate names — are pairwise distinct, provided provider names
are pairwise distinct and every provider name and every effective normalized
model name is an already-sanitized hyphen-free identifier.  (Without the
latter conditions the claim fails: distinct names can sanitize to the same
identifier, see the counterexample.) -/
theorem group_names_nodup (providers : List ProviderConfig) (rm : RenameMap)
    (hpn : (providers.map (fun q => q.name)).Nodup)
    (hclean : ∀ p ∈ providers, CleanName p.name)
    (hmods : ∀ p ∈ providers, ∀ o ∈ p.models,
      CleanName (effName (renamesFor rm p.name) o)) :
    ((split_providers providers rm).map (fun g => g.group_name) ++
      (dupKeys providers rm).map aggGroupName).Nodup := by
  rw [all_names_eq]
  exact (allKeys_nodup hpn).map_on (fun x hx y hy h =>
    keyName_inj (keyOK_of_mem hclean hmods x hx) (keyOK_of_mem hclean hmods y hy) h)

/-- Witness for the amended C9, at the catalog a={m1,m2}, b={m1,m2}. -/
theorem group_names_nodup_witness :
    ((split_providers
        [⟨"a".toList, "u".toList, "k".toList, "openai".toList,
          ["m1".toList, "m2".toList]⟩,
         ⟨"b".toList, "u".toList, "k".toList, "openai".toList,
          ["m1".toList, "m2".toList]⟩] []).map (fun g => g.group_name) ++
      (dupKeys
        [⟨"a".toList, "u".toList, "k".toList, "openai".toList,
          ["m1".toList, "m2".toList]⟩,
         ⟨"b".toList, "u".toList, "k".toList, "openai".toList,
          ["m1".toList, "m2".toList]⟩] []).map aggGroupName).Nodup :=
  group_names_nodup
    [⟨"a".toList, "u".toList, "k".toList, "openai".toList, ["m1".toList, "m2".toList]⟩,
     ⟨"b".toList, "u".toList, "k".toList, "openai".toList, ["m1".toList, "m2".toList]⟩] []
    (by decide) (by decide) (by decide)

/-! ### DiffEngine (`GPTLoadClient.diff_configs`, gptload_client.py 873-1133) -/

/-- One entry of a group's `upstreams` list: `url` may be missing, `weight`
defaults to 10 via `.get('weight', 10)`. -/
structure Upstream where
  url : Option Str
  weight : Nat
deriving DecidableEq

/-- A group configuration dict as consumed by `diff_configs`.  Existing
(remote) aggregate groups carry `sub_groups` (the name list that
`_extract_sub_group_names` reads, before its deduplication); desired
aggregate groups carry `sub_group_names`; a missing dict key is modelled by
the default that Python's `.get` supplies (`[]`, `None`, or `'standard'` for
`group_type`). -/
structure GroupCfg where
  name : Str
  group_type : Str
  id : Option Nat
  channel_type : Option Str
  model_redirect_rules : List (Str × Str)
  model_redirect_strict : Option Bool
  upstreams : List Upstream
  sub_groups : List Str
  sub_group_names : List Str
deriving DecidableEq

/-- The helper `_extract_sub_group_names` (lines 1183-1207): collect the names and
deduplicate preserving order. -/
def extract_sub_group_names (g : GroupCfg) : List Str := firstDedup g.sub_groups

/-- Lexicographic strict comparison of strings, as Python compares tuples. -/
def strLt : Str → Str → Bool
  | [], [] => false
  | [], _ :: _ => true
  | _ :: _, [] => false
  | a :: as, b :: bs => if a < b then true else if a = b then strLt as bs else false

/-- Order on normalized upstream pairs `(url, weight)`. -/
def upLe (x y : Str × Nat) : Bool :=
  strLt x.1 y.1 || (x.1 = y.1 && x.2 ≤ y.2)

def insertUp (x : Str × Nat) : List (Str × Nat) → List (Str × Nat)
  | [] => [x]
  | y :: t => if upLe x y then x :: y :: t else y :: insertUp x t

/-- Python `sorted` on the normalized pairs (insertion sort; only the
canonical order matters to `diff_configs`, which compares the results). -/
def sortUp (l : List (Str × Nat)) : List (Str × Nat) := l.foldr insertUp []

/-- Python `url.rstrip('/')`. -/
def rstripSlash (l : Str) : Str :=
  (l.reverse.dropWhile (fun c => c == '/')).reverse

/-- The helper `_normalize_upstreams` (lines 1209-1220): keep entries with a non-empty
url, strip its trailing slashes, pair with the weight, and sort. -/
def normalize_upstreams (ups : List Upstream) : List (Str × Nat) :=
  sortUp (ups.filterMap (fun u =>
    match u.url with
    | some url => if url = [] then none else some (rstripSlash url, u.weight)
    | none => none))

/-- Python dict equality of two association lists with unique keys: the same
key set with the same values. -/
def dictEq (l1 l2 : List (Str × Str)) : Bool :=
  l1.all (fun kv => alookup l2 kv.1 == some kv.2) &&
  l2.all (fun kv => alookup l1 kv.1 == some kv.2)

/-- Python set equality of two string lists. -/
def setEqStr (l1 l2 : List Str) : Bool :=
  l1.all (fun x => x ∈ l2) && l2.all (fun x => x ∈ l1)

/-- Whether `_detect_standard_group_changes` (lines 1034-1100) returns a
non-empty change dict: the rules dicts differ, or `channel_type`,
`model_redirect_strict`, or the normalized upstreams differ. -/
def detect_standard_group_changes (e d : GroupCfg) : Bool :=
  !(dictEq e.model_redirect_rules d.model_redirect_rules) ||
  e.channel_type != d.channel_type ||
  e.model_redirect_strict != d.model_redirect_strict ||
  normalize_upstreams e.upstreams != normalize_upstreams d.upstreams

/-- Whether `_detect_aggregate_group_changes` (lines 1102-1133) returns a
non-empty change dict: the existing sub-group name set (extracted from
`sub_groups`) differs from the desired `sub_group_names` set. -/
def detect_aggregate_group_changes (e d : GroupCfg) : Bool :=
  !(setEqStr (extract_sub_group_names e) d.sub_group_names)

/-- One entry of `to_update_standard`/`to_update_aggregate`: `name`,
`group_id` (the existing group's id), and the two configurations the
change dict is computed from. -/
structure UpdateEntry where
  name : Str
  group_id : Option Nat
  existing : GroupCfg
  desired : GroupCfg
deriving DecidableEq

/-- One entry of `orphaned_aggregates` (lines 987-998). -/
structure OrphanEntry where
  name : Str
  group_id : Option Nat
  remaining_sub_group : Str
deriving DecidableEq

/-- The plan returned by `diff_configs` (summary omitted). -/
structure DiffResult where
  to_create_standard : List GroupCfg
  to_create_aggregate : List GroupCfg
  to_update_standard : List UpdateEntry
  to_update_aggregate : List UpdateEntry
  to_delete_standard : List Str
  to_delete_aggregate : List Str
  orphaned_aggregates : List OrphanEntry
deriving DecidableEq

def stdType : Str := "standard".toList

def aggType : Str := "aggregate".toList

def cfgNames (l : List GroupCfg) : List Str := l.map (fun g => g.name)

/-- The method `GPTLoadClient.diff_configs` (lines 873-1032).  A configuration is the
value list of its `group_by_name` dict, in insertion order (keys are the
pairwise-distinct group names).  Shared names are traversed in desired-dict
order (Python iterates the key-set intersection, whose order is
unspecified). -/
def diff_configs (existing desired : List GroupCfg) : DiffResult :=
  let existing_standard := existing.filter (fun g => g.group_type = stdType)
  let existing_aggregate := existing.filter (fun g => g.group_type = aggType)
  let desired_standard := desired.filter (fun g => g.group_type = stdType)
  let desired_aggregate := desired.filter (fun g => g.group_type = aggType)
  { to_create_standard :=
      desired_standard.filter (fun d => d.name ∉ cfgNames existing_standard)
    to_create_aggregate :=
      desired_aggregate.filter (fun d => d.name ∉ cfgNames existing_aggregate)
    to_update_standard :=
      desired_standard.filterMap (fun d =>
        match existing_standard.find? (fun e => e.name = d.name) with
        | some e =>
            if detect_standard_group_changes e d then
              some { name := d.name, group_id := e.id, existing := e, desired := d }
            else none
        | none => none)
    to_update_aggregate :=
      desired_aggregate.filterMap (fun d =>
        match existing_aggregate.find? (fun e => e.name = d.name) with
        | some e =>
            if detect_aggregate_group_changes e d then
              some { name := d.name, group_id := e.id, existing := e, desired := d }
            else none
        | none => none)
    to_delete_standard :=
      (cfgNames existing_standard).filter (fun n => n ∉ cfgNames desired_standard)
    to_delete_aggregate :=
      (cfgNames existing_aggregate).filter (fun n => n ∉ cfgNames desired_aggregate)
    orphaned_aggregates :=
      existing_aggregate.filterMap (fun g =>
        match desired_aggregate.find? (fun d => d.name = g.name) with
        | some d =>
            match d.sub_group_names with
            | [x] => some { name := g.name, group_id := g.id, remaining_sub_group := x }
            | _ => none
        | none => none) }

/-! ### C5: diff self-idempotence -/

lemma keys_nodup_unique {β : Type} {l : List (Str × β)} (h : (l.map Prod.fst).Nodup)
    {k : Str} {v w : β} (h1 : (k, v) ∈ l) (h2 : (k, w) ∈ l) : v = w := by
  induction l with
  | nil => simp at h1
  | cons a t ih =>
    obtain ⟨k1, v1⟩ := a
    simp only [List.map_cons, List.nodup_cons] at h
    rcases List.mem_cons.mp h1 with heq1 | h1t
    · have hk : k = k1 := congrArg Prod.fst heq1
      have hv : v = v1 := congrArg Prod.snd heq1
      rcases List.mem_cons.mp h2 with heq2 | h2t
      · have hw : w = v1 := congrArg Prod.snd heq2
        rw [hv, hw]
      · exfalso
        apply h.1
        rw [← hk]
        exact List.mem_map_of_mem Prod.fst h2t
    · rcases List.mem_cons.mp h2 with heq2 | h2t
      · have hk : k = k1 := congrArg Prod.fst heq2
        exfalso
        apply h.1
        rw [← hk]
        exact List.mem_map_of_mem Prod.fst h1t
      · exact ih h.2 h1t h2t

lemma alookup_of_nodup_keys {β : Type} {l : List (Str × β)}
    (h : (l.map Prod.fst).Nodup) {k : Str} {v : β} (hm : (k, v) ∈ l) :
    alookup l k = some v :=
  alookup_eq_some hm (fun _ hw => keys_nodup_unique h hw hm)

lemma dictEq_refl {l : List (Str × Str)} (h : (l.map Prod.fst).Nodup) :
    dictEq l l = true := by
  rw [dictEq, Bool.and_eq_true, List.all_eq_true]
  constructor <;>
  · intro kv hkv
    rw [alookup_of_nodup_keys h (show (kv.1, kv.2) ∈ l from hkv)]
    simp

lemma detect_standard_self {d : GroupCfg}
    (h : (d.model_redirect_rules.map Prod.fst).Nodup) :
    detect_standard_group_changes d d = false := by
  simp [detect_standard_group_changes, dictEq_refl h]

lemma find?_name_self {l : List GroupCfg} (hn : (l.map (fun g => g.name)).Nodup)
    {d : GroupCfg} (hd : d ∈ l) :
    l.find? (fun e => e.name = d.name) = some d := by
  induction l with
  | nil => simp at hd
  | cons a t ih =>
    simp only [List.map_cons, List.nodup_cons] at hn
    by_cases ha : a.name = d.name
    · have had : a = d := by
        rcases List.mem_cons.mp hd with rfl | hdt
        · rfl
        · exact absurd (ha ▸ List.mem_map_of_mem (fun g => g.name) hdt) hn.1
      subst had
      rw [List.find?_cons_of_pos _ (by simp)]
    · rcases List.mem_cons.mp hd with rfl | hdt
      · exact absurd rfl ha
      · rw [List.find?_cons_of_neg _ (by simpa using ha)]
        exact ih hn.2 hdt

/-- C5 counterexample inputs: a realistic aggregate snapshot (remote shape:
`sub_groups` filled, `sub_group_names` absent) and a desired-shaped
one-member aggregate. -/
def cfgAggSnapshot : GroupCfg :=
  { name := "aggregate-m1".toList, group_type := "aggregate".toList, id := some 7,
    channel_type := some ("openai".toList), model_redirect_rules := [],
    model_redirect_strict := none, upstreams := [],
    sub_groups := ["a-1-m1".toList, "b-1-m1".toList], sub_group_names := [] }

def cfgAggOneMember : GroupCfg :=
  { name := "aggregate-m1".toList, group_type := "aggregate".toList, id := some 7,
    channel_type := some ("openai".toList), model_redirect_rules := [],
    model_redirect_strict := none, upstreams := [],
    sub_groups := ["a-1-m1".toList], sub_group_names := ["a-1-m1".toList] }

/-- C5 counterexample: `diff_configs(X, X)` is not the empty plan for every
snapshot X.  A remote-shaped aggregate (members under `sub_groups`, no
`sub_group_names`) flags a spurious membership update, and a one-member
aggregate flags itself as orphaned. -/
theorem diff_configs_self_counterexample :
    (diff_configs [cfgAggSnapshot] [cfgAggSnapshot]).to_update_aggregate.length = 1 ∧
    (diff_configs [cfgAggOneMember] [cfgAggOneMember]).orphaned_aggregates.length = 1 :=
  ⟨by decide, by decide⟩

/-- C5 amended: `diff_configs(X, X)` yields the empty plan for every
well-formed snapshot X: group names pairwise distinct (X is a dict keyed by
name), each group's redirect-rule keys distinct (rules are a dict), each
aggregate's extracted `sub_groups` names agreeing, as a set, with its
`sub_group_names`, and no aggregate carrying exactly one `sub_group_names`
entry.  The create/update-standard/delete lists are empty by the first two
conditions alone; the last two are required because the aggregate comparison
reads existing membership from `sub_groups` but desired membership from
`sub_group_names`, and the orphan check fires on any shared aggregate whose
desired membership has length 1. -/
theorem diff_configs_self (X : List GroupCfg)
    (hn : (X.map (fun g => g.name)).Nodup)
    (hr : ∀ g ∈ X, (g.model_redirect_rules.map Prod.fst).Nodup)
    (hs : ∀ g ∈ X, g.group_type = aggType →
      setEqStr (extract_sub_group_names g) g.sub_group_names = true)
    (ho : ∀ g ∈ X, g.group_type = aggType → g.sub_group_names.length ≠ 1) :
    diff_configs X X =
      { to_create_standard := [], to_create_aggregate := [],
        to_update_standard := [], to_update_aggregate := [],
        to_delete_standard := [], to_delete_aggregate := [],
        orphaned_aggregates := [] } := by
  have hsubn : ∀ p : GroupCfg → Bool, ((X.filter p).map (fun g => g.name)).Nodup :=
    fun p => ((List.filter_sublist X).map _).nodup hn
  simp only [diff_configs, DiffResult.mk.injEq]
  refine ⟨?_, ?_, ?_, ?_, ?_, ?_, ?_⟩
  · rw [List.filter_eq_nil_iff]
    intro d hd
    simp only [decide_eq_true_eq, not_not]
    exact List.mem_map_of_mem (fun g => g.name) hd
  · rw [List.filter_eq_nil_iff]
    intro d hd
    simp only [decide_eq_true_eq, not_not]
    exact List.mem_map_of_mem (fun g => g.name) hd
  · rw [List.filterMap_eq_nil_iff]
    intro d hd
    rw [find?_name_self (hsubn _) hd]
    simp [detect_standard_self (hr d (List.mem_of_mem_filter hd))]
  · rw [List.filterMap_eq_nil_iff]
    intro d hd
    rw [find?_name_self (hsubn _) hd]
    have hda := List.mem_filter.mp hd
    have hdet : detect_aggregate_group_changes d d = false := by
      rw [detect_aggregate_group_changes,
        hs d hda.1 (by simpa using hda.2)]
      rfl
    simp [hdet]
  · rw [List.filter_eq_nil_iff]
    intro n hn2
    simp only [decide_eq_true_eq, not_not]
    exact hn2
  · rw [List.filter_eq_nil_iff]
    intro n hn2
    simp only [decide_eq_true_eq, not_not]
    exact hn2
  · rw [List.filterMap_eq_nil_iff]
    intro g hg
    rw [find?_name_self (hsubn _) hg]
    have hga := List.mem_filter.mp hg
    have hlen := ho g hga.1 (by simpa using hga.2)
    cases hsub : g.sub_group_names with
    | nil => simp [hsub]
    | cons x t =>
      cases t with
      | nil => exact absurd (by rw [hsub]; rfl) hlen
      | cons y t2 => simp [hsub]

def cfgStdSample : GroupCfg :=
  { name := "a-1-m1".toList, group_type := "standard".toList, id := some 3,
    channel_type := some ("openai".toList),
    model_redirect_rules := [("m1".toList, "m1".toList)],
    model_redirect_strict := some true,
    upstreams := [{ url := some ("hu".toList), weight := 10 }],
    sub_groups := [], sub_group_names := [] }

def cfgAggConsistent : GroupCfg :=
  { name := "aggregate-m1".toList, group_type := "aggregate".toList, id := some 9,
    channel_type := some ("openai".toList), model_redirect_rules := [],
    model_redirect_strict := none, upstreams := [],
    sub_groups := ["a-1-m1".toList, "b-1-m1".toList],
    sub_group_names := ["a-1-m1".toList, "b-1-m1".toList] }

/-- Witness for the amended C5 on a two-group snapshot. -/
theorem diff_configs_self_witness :
    diff_configs [cfgStdSample, cfgAggConsistent] [cfgStdSample, cfgAggConsistent] =
      { to_create_standard := [], to_create_aggregate := [],
        to_update_standard := [], to_update_aggregate := [],
        to_delete_standard := [], to_delete_aggregate := [],
        orphaned_aggregates := [] } :=
  diff_configs_self [cfgStdSample, cfgAggConsistent]
    (by decide) (by decide) (by decide) (by decide)

/-! ### C10: orphan flagging restricted to shared names -/

/-- C10: every `orphaned_aggregates` entry names an aggregate present in both
configurations whose desired `sub_group_names` has length exactly one; an
existing aggregate absent from the desired configuration goes to
`to_delete_aggregate` and never to `orphaned_aggregates`. -/
theorem orphan_restriction (existing desired : List GroupCfg) :
    (∀ e ∈ (diff_configs existing desired).orphaned_aggregates,
      e.name ∈ cfgNames (existing.filter (fun g => g.group_type = aggType)) ∧
      ∃ d ∈ desired.filter (fun g => g.group_type = aggType),
        d.name = e.name ∧ d.sub_group_names = [e.remaining_sub_group]) ∧
    (∀ g ∈ existing.filter (fun g => g.group_type = aggType),
      g.name ∉ cfgNames (desired.filter (fun g => g.group_type = aggType)) →
      g.name ∈ (diff_configs existing desired).to_delete_aggregate ∧
      ∀ e ∈ (diff_configs existing desired).orphaned_aggregates, e.name ≠ g.name) := by
  have horph : ∀ e ∈ (diff_configs existing desired).orphaned_aggregates,
      e.name ∈ cfgNames (existing.filter (fun g => g.group_type = aggType)) ∧
      ∃ d ∈ desired.filter (fun g => g.group_type = aggType),
        d.name = e.name ∧ d.sub_group_names = [e.remaining_sub_group] := by
    intro e he
    simp only [diff_configs] at he
    obtain ⟨g, hg, hfg⟩ := List.mem_filterMap.mp he
    split at hfg
    next d hfind =>
      have hdn : d.name = g.name := by simpa using List.find?_some hfind
      have hdm := List.mem_of_find?_eq_some hfind
      split at hfg
      next x heq =>
        simp only [Option.some.injEq] at hfg
        subst hfg
        exact ⟨List.mem_map_of_mem (fun g => g.name) hg, d, hdm, hdn, heq⟩
      next => simp at hfg
    next => simp at hfg
  refine ⟨horph, ?_⟩
  intro g hg hout
  constructor
  · simp only [diff_configs]
    rw [List.mem_filter]
    exact ⟨List.mem_map_of_mem (fun g => g.name) hg, by simpa using hout⟩
  · intro e he hne
    obtain ⟨-, d, hd, hdn, -⟩ := horph e he
    apply hout
    rw [← hne, ← hdn]
    exact List.mem_map_of_mem (fun g => g.name) hd

def cfgAggGone : GroupCfg :=
  { name := "aggregate-m2".toList, group_type := "aggregate".toList, id := some 4,
    channel_type := some ("openai".toList), model_redirect_rules := [],
    model_redirect_strict := none, upstreams := [],
    sub_groups := ["a-1-m2".toList], sub_group_names := [] }

def cfgAggDesiredOne : GroupCfg :=
  { name := "aggregate-m1".toList, group_type := "aggregate".toList, id := none,
    channel_type := some ("openai".toList), model_redirect_rules := [],
    model_redirect_strict := none, upstreams := [],
    sub_groups := [], sub_group_names := ["a-1-m1".toList] }

def orphanSampleEntry : OrphanEntry :=
  { name := "aggregate-m1".toList, group_id := some 7,
    remaining_sub_group := "a-1-m1".toList }

/-- Witness for C10: an orphan entry for the shared one-member aggregate, and
the vanished aggregate landing in the delete list. -/
theorem orphan_restriction_witness :
    (orphanSampleEntry.name ∈
      cfgNames ([cfgAggSnapshot, cfgAggGone].filter
        (fun g => g.group_type = aggType)) ∧
      ∃ d ∈ [cfgAggDesiredOne].filter (fun g => g.group_type = aggType),
        d.name = orphanSampleEntry.name ∧
        d.sub_group_names = [orphanSampleEntry.remaining_sub_group]) ∧
    cfgAggGone.name ∈
      (diff_configs [cfgAggSnapshot, cfgAggGone] [cfgAggDesiredOne]).to_delete_aggregate := by
  have h := orphan_restriction [cfgAggSnapshot, cfgAggGone] [cfgAggDesiredOne]
  exact ⟨h.1 orphanSampleEntry (by decide),
    (h.2 cfgAggGone (by decide) (by decide)).1⟩

/-! ### C6: cascade deletion (`delete_standard_group_with_cascade`,
gptload_client.py 521-584, with `cleanup_empty_aggregate_group` 493-518).
The remote service's primitives (`listGroups`, `getSubGroups`,
`removeSubGroup`, `deleteGroup`) are modelled from their §6 interface as
operations on an explicit group-list state. -/

/-- One remote group: its id, whether it is an aggregate, and (for
aggregates) the ids of its member sub-groups. -/
structure RGroup where
  id : Nat
  isAgg : Bool
  members : List Nat
deriving DecidableEq

abbrev RemoteState := List RGroup

def groupById (s : RemoteState) (i : Nat) : Option RGroup :=
  s.find? (fun g => g.id = i)

/-- The call `get_parent_aggregate_groups`: the aggregates whose membership includes
the given standard group. -/
def parentAggregates (s : RemoteState) (gid : Nat) : List RGroup :=
  s.filter (fun g => g.isAgg && gid ∈ g.members)

/-- The remote `removeSubGroup`: drop the sub-group link from one aggregate. -/
def delete_sub_group (s : RemoteState) (aggId subId : Nat) : RemoteState :=
  s.map (fun g => if g.id = aggId then ⟨g.id, g.isAgg, g.members.filter (fun x => x ≠ subId)⟩ else g)

/-- The remote `deleteGroup`. -/
def delete_group (s : RemoteState) (i : Nat) : RemoteState :=
  s.filter (fun g => g.id ≠ i)

/-- The remote `getSubGroups` of an aggregate (empty when the group is gone). -/
def get_sub_groups (s : RemoteState) (i : Nat) : List Nat :=
  ((groupById s i).map (fun g => g.members)).getD []

/-- The method `cleanup_empty_aggregate_group` (lines 493-518): delete the aggregate iff
it has NO sub-groups left; return the state and whether it was deleted. -/
def cleanup_empty_aggregate_group (s : RemoteState) (aggId : Nat) :
    RemoteState × Bool :=
  if get_sub_groups s aggId = [] then (delete_group s aggId, true) else (s, false)

/-- The body of the per-parent loop of `delete_standard_group_with_cascade`
(lines 555-571): skip falsy ids (`if aggregate_id:`), unlink, record the
update, then delete the aggregate when `cleanup_empty_aggregate_group` finds
it empty, moving it from `updated` to `deleted`. -/
def cascadeStep (gid : Nat) (acc : RemoteState × List Nat × List Nat)
    (aggId : Nat) : RemoteState × List Nat × List Nat :=
  if aggId = 0 then acc
  else
    let s1 := delete_sub_group acc.1 aggId gid
    let upd1 := acc.2.1 ++ [aggId]
    let r := cleanup_empty_aggregate_group s1 aggId
    if r.2 then (r.1, upd1.erase aggId, acc.2.2 ++ [aggId])
    else (r.1, upd1, acc.2.2)

/-- The method `delete_standard_group_with_cascade` (lines 521-584): fetch the parents,
process each, then delete the standard group itself.  Returns the final
remote state, `updated_aggregates`, and `deleted_aggregates`. -/
def delete_standard_group_with_cascade (s : RemoteState) (gid : Nat) :
    RemoteState × List Nat × List Nat :=
  let parents := (parentAggregates s gid).map (fun g => g.id)
  let r := parents.foldl (cascadeStep gid) (s, [], [])
  (delete_group r.1 gid, r.2.1, r.2.2)

lemma cascadeStep_eq_zero {gid : Nat} {acc : RemoteState × List Nat × List Nat} :
    cascadeStep gid acc 0 = acc := by
  rw [cascadeStep, if_pos rfl]

lemma cascadeStep_eq_del {gid aggId : Nat} {acc : RemoteState × List Nat × List Nat}
    (hb : aggId ≠ 0)
    (hc : get_sub_groups (delete_sub_group acc.1 aggId gid) aggId = []) :
    cascadeStep gid acc aggId =
      (delete_group (delete_sub_group acc.1 aggId gid) aggId,
       (acc.2.1 ++ [aggId]).erase aggId, acc.2.2 ++ [aggId]) := by
  rw [cascadeStep, if_neg hb]
  simp [cleanup_empty_aggregate_group, hc]

lemma cascadeStep_eq_keep {gid aggId : Nat} {acc : RemoteState × List Nat × List Nat}
    (hb : aggId ≠ 0)
    (hc : get_sub_groups (delete_sub_group acc.1 aggId gid) aggId ≠ []) :
    cascadeStep gid acc aggId =
      (delete_sub_group acc.1 aggId gid, acc.2.1 ++ [aggId], acc.2.2) := by
  rw [cascadeStep, if_neg hb]
  simp [cleanup_empty_aggregate_group, hc]

lemma groupById_delete_sub_ne {s : RemoteState} {i x j : Nat} (hne : j ≠ i) :
    groupById (delete_sub_group s i x) j = groupById s j := by
  induction s with
  | nil => rfl
  | cons a t ih =>
    rw [delete_sub_group, List.map_cons]
    by_cases haj : a.id = j
    · have hai : ¬(a.id = i) := fun h => hne (haj.symm.trans h)
      rw [if_neg hai]
      simp only [groupById]
      rw [List.find?_cons_of_pos _ (by simpa using haj),
        List.find?_cons_of_pos _ (by simpa using haj)]
    · by_cases hai : a.id = i
      · rw [if_pos hai]
        simp only [groupById]
        rw [List.find?_cons_of_neg _ (by simpa using haj),
          List.find?_cons_of_neg _ (by simpa using haj)]
        exact ih
      · rw [if_neg hai]
        simp only [groupById]
        rw [List.find?_cons_of_neg _ (by simpa using haj),
          List.find?_cons_of_neg _ (by simpa using haj)]
        exact ih

lemma groupById_delete_sub_self {s : RemoteState} {i x : Nat} {g : RGroup}
    (hg : groupById s i = some g) :
    groupById (delete_sub_group s i x) i =
      some ⟨g.id, g.isAgg, g.members.filter (fun y => y ≠ x)⟩ := by
  induction s with
  | nil => simp [groupById] at hg
  | cons a t ih =>
    rw [delete_sub_group, List.map_cons]
    by_cases ha : a.id = i
    · rw [if_pos ha]
      simp only [groupById] at hg ⊢
      rw [List.find?_cons_of_pos _ (by simpa using ha)] at hg
      rw [List.find?_cons_of_pos _ (by simpa using ha)]
      simp only [Option.some.injEq] at hg ⊢
      rw [← hg]
    · rw [if_neg ha]
      simp only [groupById] at hg ⊢
      rw [List.find?_cons_of_neg _ (by simpa using ha)] at hg
      rw [List.find?_cons_of_neg _ (by simpa using ha)]
      exact ih hg

lemma groupById_delete_group_ne {s : RemoteState} {i j : Nat} (hne : j ≠ i) :
    groupById (delete_group s i) j = groupById s j := by
  induction s with
  | nil => rfl
  | cons a t ih =>
    rw [delete_group, List.filter_cons]
    by_cases ha : a.id = i
    · rw [if_neg (by simp [ha])]
      have haj : ¬(a.id = j) := fun h => hne (h ▸ ha ▸ rfl)
      simp only [groupById]
      rw [List.find?_cons_of_neg _ (by simpa using haj)]
      exact ih
    · rw [if_pos (by simpa using ha)]
      by_cases haj : a.id = j
      · simp only [groupById]
        rw [List.find?_cons_of_pos _ (by simpa using haj),
          List.find?_cons_of_pos _ (by simpa using haj)]
      · simp only [groupById]
        rw [List.find?_cons_of_neg _ (by simpa using haj),
          List.find?_cons_of_neg _ (by simpa using haj)]
        exact ih

lemma mem_delete_group {s : RemoteState} {i : Nat} {g : RGroup}
    (hg : g ∈ delete_group s i) : g ∈ s ∧ g.id ≠ i := by
  rw [delete_group] at hg
  have hf := List.mem_filter.mp hg
  exact ⟨hf.1, by simpa using hf.2⟩

lemma mem_delete_sub_group {s : RemoteState} {i x : Nat} {g : RGroup}
    (hg : g ∈ delete_sub_group s i x) : ∃ g0 ∈ s, g.id = g0.id := by
  rw [delete_sub_group] at hg
  obtain ⟨g0, hg0, heq⟩ := List.mem_map.mp hg
  refine ⟨g0, hg0, ?_⟩
  by_cases h : g0.id = i
  · rw [if_pos h] at heq; rw [← heq]
  · rw [if_neg h] at heq; rw [← heq]

/-- After a deletion, the per-parent loop never reintroduces a group with the
watched id and keeps its deletion record. -/
lemma foldl_preserves_gone (gid aid : Nat) :
    ∀ (P : List Nat) (acc : RemoteState × List Nat × List Nat),
    (∀ g ∈ acc.1, g.id ≠ aid) → aid ∈ acc.2.2 →
    (∀ g ∈ (P.foldl (cascadeStep gid) acc).1, g.id ≠ aid) ∧
      aid ∈ (P.foldl (cascadeStep gid) acc).2.2 := by
  intro P
  induction P with
  | nil => intro acc h1 h2; exact ⟨h1, h2⟩
  | cons b rest ih =>
    intro acc h1 h2
    rw [List.foldl_cons]
    apply ih
    · intro g hg
      by_cases hb : b = 0
      · subst hb; rw [cascadeStep_eq_zero] at hg; exact h1 g hg
      · by_cases hc : get_sub_groups (delete_sub_group acc.1 b gid) b = []
        · rw [cascadeStep_eq_del hb hc] at hg
          have hg2 := List.mem_of_mem_filter hg
          obtain ⟨g0, hg0, hid⟩ := mem_delete_sub_group hg2
          rw [hid]; exact h1 g0 hg0
        · rw [cascadeStep_eq_keep hb hc] at hg
          obtain ⟨g0, hg0, hid⟩ := mem_delete_sub_group hg
          rw [hid]; exact h1 g0 hg0
    · by_cases hb : b = 0
      · subst hb; rw [cascadeStep_eq_zero]; exact h2
      · by_cases hc : get_sub_groups (delete_sub_group acc.1 b gid) b = []
        · rw [cascadeStep_eq_del hb hc]
          exact List.mem_append.mpr (Or.inl h2)
        · rw [cascadeStep_eq_keep hb hc]
          exact h2

/-- Steps for other aggregates leave the watched entry and the deletion
record untouched. -/
lemma foldl_preserves_alive (gid aid : Nat) (g0 : RGroup) :
    ∀ (P : List Nat) (acc : RemoteState × List Nat × List Nat),
    aid ∉ P → groupById acc.1 aid = some g0 → aid ∉ acc.2.2 →
    groupById (P.foldl (cascadeStep gid) acc).1 aid = some g0 ∧
      aid ∉ (P.foldl (cascadeStep gid) acc).2.2 := by
  intro P
  induction P with
  | nil => intro acc _ h1 h2; exact ⟨h1, h2⟩
  | cons b rest ih =>
    intro acc hnp h1 h2
    have hbne : aid ≠ b := fun h => hnp (h ▸ List.mem_cons_self _ _)
    rw [List.foldl_cons]
    apply ih _ (fun h => hnp (List.mem_cons_of_mem _ h))
    · by_cases hb : b = 0
      · subst hb; rw [cascadeStep_eq_zero]; exact h1
      · by_cases hc : get_sub_groups (delete_sub_group acc.1 b gid) b = []
        · rw [cascadeStep_eq_del hb hc]
          rw [groupById_delete_group_ne hbne, groupById_delete_sub_ne hbne]
          exact h1
        · rw [cascadeStep_eq_keep hb hc]
          rw [groupById_delete_sub_ne hbne]
          exact h1
    · by_cases hb : b = 0
      · subst hb; rw [cascadeStep_eq_zero]; exact h2
      · by_cases hc : get_sub_groups (delete_sub_group acc.1 b gid) b = []
        · rw [cascadeStep_eq_del hb hc]
          intro hmem
          rcases List.mem_append.mp hmem with h | h
          · exact h2 h
          · simp only [List.mem_singleton] at h
            exact hbne h
        · rw [cascadeStep_eq_keep hb hc]
          exact h2

lemma groupById_self {s : RemoteState} (hids : (s.map (fun g => g.id)).Nodup)
    {a : RGroup} (ha : a ∈ s) : groupById s a.id = some a := by
  induction s with
  | nil => simp at ha
  | cons b t ih =>
    simp only [List.map_cons, List.nodup_cons] at hids
    by_cases hb : b.id = a.id
    · have hba : b = a := by
        rcases List.mem_cons.mp ha with rfl | hat
        · rfl
        · exact absurd (hb ▸ List.mem_map_of_mem (fun g => g.id) hat) hids.1
      subst hba
      rw [groupById, List.find?_cons_of_pos _ (by simp)]
    · rcases List.mem_cons.mp ha with rfl | hat
      · exact absurd rfl hb
      · rw [groupById, List.find?_cons_of_neg _ (by simpa using hb)]
        exact ih hids.2 hat

/-- C6 counterexample: deleting standard group 1, the second-to-last member
of aggregate 10, leaves the aggregate with one member; the code keeps it
(`deleted_aggregates` is empty) although the claim requires deleting every
parent left with ≤ 1 member in the same run. -/
theorem cascade_threshold_counterexample :
    (delete_standard_group_with_cascade
       [⟨1, false, []⟩, ⟨2, false, []⟩, ⟨10, true, [1, 2]⟩] 1).2.2 = [] ∧
    ⟨10, true, [2]⟩ ∈ (delete_standard_group_with_cascade
       [⟨1, false, []⟩, ⟨2, false, []⟩, ⟨10, true, [1, 2]⟩] 1).1 :=
  ⟨by decide, by decide⟩

/-- C6 amended: when the executor deletes an obsolete standard group it
unlinks it from every parent aggregate, and a parent aggregate is deleted in
the same run iff the unlinking leaves it with NO members (threshold 0, not
≤ 1): a parent left with one or more members — in particular exactly one —
is kept, with the standard group removed from its membership.  (The
hypotheses state that remote ids are unique, the watched parent is an
aggregate containing the group, its id is non-zero — the loop skips falsy
ids — and differs from the deleted group's id.) -/
theorem cascade_deletes_only_empty (s : RemoteState) (gid : Nat)
    (hids : (s.map (fun g => g.id)).Nodup)
    (a : RGroup) (ha : a ∈ s) (haggr : a.isAgg = true) (hmem : gid ∈ a.members)
    (ha0 : a.id ≠ 0) (hagid : a.id ≠ gid) :
    (a.members.filter (fun x => x ≠ gid) = [] →
      a.id ∈ (delete_standard_group_with_cascade s gid).2.2 ∧
      ∀ g ∈ (delete_standard_group_with_cascade s gid).1, g.id ≠ a.id) ∧
    (a.members.filter (fun x => x ≠ gid) ≠ [] →
      a.id ∉ (delete_standard_group_with_cascade s gid).2.2 ∧
      ∃ g ∈ (delete_standard_group_with_cascade s gid).1,
        g.id = a.id ∧ g.members = a.members.filter (fun x => x ≠ gid)) := by
  have hPmem : a.id ∈ (parentAggregates s gid).map (fun g => g.id) := by
    refine List.mem_map_of_mem _ ?_
    rw [parentAggregates, List.mem_filter]
    exact ⟨ha, by simp [haggr, hmem]⟩
  have hPnd : ((parentAggregates s gid).map (fun g => g.id)).Nodup :=
    ((List.filter_sublist s).map _).nodup hids
  obtain ⟨P1, P2, hsplit⟩ := List.append_of_mem hPmem
  have hn1 : a.id ∉ P1 ∧ a.id ∉ P2 := by
    rw [hsplit, List.nodup_append] at hPnd
    obtain ⟨-, h2, hdisj⟩ := hPnd
    rw [List.nodup_cons] at h2
    exact ⟨fun hmem1 => hdisj hmem1 (List.mem_cons_self _ _), h2.1⟩
  simp only [delete_standard_group_with_cascade]
  rw [hsplit, List.foldl_append, List.foldl_cons]
  set A1 := P1.foldl (cascadeStep gid) (s, [], []) with hA1
  have halive1 := foldl_preserves_alive gid a.id a P1 (s, [], []) hn1.1
    (groupById_self hids ha) (by simp)
  rw [← hA1] at halive1
  constructor
  · intro hempty
    have hsubs : get_sub_groups (delete_sub_group A1.1 a.id gid) a.id = [] := by
      rw [get_sub_groups, groupById_delete_sub_self halive1.1]
      simpa using hempty
    rw [cascadeStep_eq_del ha0 hsubs]
    have hgone := foldl_preserves_gone gid a.id P2
      (delete_group (delete_sub_group A1.1 a.id gid) a.id,
       (A1.2.1 ++ [a.id]).erase a.id, A1.2.2 ++ [a.id])
      (fun g hg => (mem_delete_group hg).2)
      (List.mem_append.mpr (Or.inr (List.mem_singleton.mpr rfl)))
    refine ⟨hgone.2, ?_⟩
    intro g hg
    exact hgone.1 g (mem_delete_group hg).1
  · intro hne
    have hsubs : get_sub_groups (delete_sub_group A1.1 a.id gid) a.id =
        a.members.filter (fun x => x ≠ gid) := by
      rw [get_sub_groups, groupById_delete_sub_self halive1.1]
      rfl
    have hsubsne : get_sub_groups (delete_sub_group A1.1 a.id gid) a.id ≠ [] := by
      rw [hsubs]; exact hne
    rw [cascadeStep_eq_keep ha0 hsubsne]
    have halive2 := foldl_preserves_alive gid a.id
      ⟨a.id, a.isAgg, a.members.filter (fun y => y ≠ gid)⟩ P2
      (delete_sub_group A1.1 a.id gid, A1.2.1 ++ [a.id], A1.2.2)
      hn1.2 (groupById_delete_sub_self halive1.1) halive1.2
    refine ⟨halive2.2, ?_⟩
    have hfinal : groupById (delete_group
        (P2.foldl (cascadeStep gid)
          (delete_sub_group A1.1 a.id gid, A1.2.1 ++ [a.id], A1.2.2)).1 gid) a.id =
        some ⟨a.id, a.isAgg, a.members.filter (fun y => y ≠ gid)⟩ := by
      rw [groupById_delete_group_ne hagid]
      exact halive2.1
    exact ⟨_, List.mem_of_find?_eq_some hfinal, rfl, rfl⟩

/-- Witness for the amended C6: deleting group 1, the only member of
aggregate 10, deletes the aggregate in the same run. -/
theorem cascade_deletes_only_empty_witness :
    (10 : Nat) ∈ (delete_standard_group_with_cascade
      [⟨1, false, []⟩, ⟨10, true, [1]⟩] 1).2.2 := by
  have h := cascade_deletes_only_empty [⟨1, false, []⟩, ⟨10, true, [1]⟩] 1
    (by decide) ⟨10, true, [1]⟩ (by decide) rfl (by decide) (by decide) (by decide)
  exact (h.1 (by decide)).1

/-! ### C7: aggregate linking of newly created groups
(`create_new_provider_groups`, gptload_client.py 1510-1622) -/

/-- The aggregate-linking phase of `create_new_provider_groups` (lines
1589-1616): for each created group `(name, id)` and every entry of
`existing_aggregates` (aggregate name ↦ id), a link is issued whenever the
aggregate's name starts with `"aggregate-"`; no model-matching check is
performed, although the inline comment (lines 1594-1596) says the link
should be "determined by checking if the group's normalized model matches".
Returns the `(aggregate_id, group_id)` links issued, in loop order. -/
def linkNewGroups (created : List (Str × Nat))
    (existing_aggregates : List (Str × Nat)) : List (Nat × Nat) :=
  created.flatMap (fun gi =>
    existing_aggregates.filterMap (fun an =>
      if (aggregateWord ++ ['-']).isPrefixOf an.1 then some (an.2, gi.2) else none))

/-- C7: the executor links the newly created group `b-0-no-aggregate-models`
(whose only model is m2) into the existing aggregate `aggregate-m1`, even
though the group does not match that aggregate's naming convention —
`aggregate-<sanitize(m2)>` is a different name.  The claim (and the code's
own comment) requires no link here; the code issues one. -/
theorem link_new_groups_ignores_model :
    linkNewGroups [("b-0-no-aggregate-models".toList, 5)]
        [("aggregate-m1".toList, 9)] = [(9, 5)] ∧
    aggGroupName "m2".toList ≠ "aggregate-m1".toList :=
  ⟨by decide, by decide⟩

/-! ### C8: fatal snapshot read (`get_existing_config`,
gptload_client.py 817-871) -/

/-- The method `get_existing_config`, modelled on its error flow: `list_groups` is one
remote call whose failure propagates; for each aggregate-typed group with an
id, the sub-group fetch is attempted and — per the `try/except` of lines
850-855 — a failure is swallowed, the group's `sub_groups` set to `[]`, and
the traversal continues.  (The partitioned views and the by-name dict the
real function also returns are projections of this list.) -/
def get_existing_config (listGroupsResult : Except Str (List GroupCfg))
    (subFetch : Nat → Except Str (List Str)) : Except Str (List GroupCfg) :=
  match listGroupsResult with
  | .error e => .error e
  | .ok groups => .ok (groups.map (fun g =>
      if g.group_type = aggType then
        match g.id with
        | some i =>
            match subFetch i with
            | .ok subs => { g with sub_groups := subs }
            | .error _ => { g with sub_groups := [] }
        | none => g
      else g))

/-- C8 counterexample: with the group listing succeeding and every sub-group
fetch failing, `get_existing_config` still returns a snapshot — the failed
aggregate's membership is silently replaced by `[]` — instead of surfacing
the error and aborting the run. -/
theorem snapshot_read_counterexample :
    get_existing_config (.ok [cfgAggSnapshot]) (fun _ => .error ("boom".toList)) =
      .ok [{ cfgAggSnapshot with sub_groups := [] }] := by rfl

/-- C8 amended: a run's snapshot read is fatal iff listing the groups fails;
a failure fetching an aggregate's sub-group membership is caught, that
aggregate's membership is treated as empty, and the read still succeeds. -/
theorem snapshot_read_fatal_iff (lg : Except Str (List GroupCfg))
    (sf : Nat → Except Str (List Str)) :
    (∃ e, get_existing_config lg sf = .error e) ↔ (∃ e, lg = .error e) := by
  cases lg with
  | error e => simp [get_existing_config]
  | ok groups => simp [get_existing_config]

end UnifiedLLM
